import Mathlib

/-!
Shallow embedding of the `depot` archival container engine
(`src/depot/src/depot_handle.rs`, `src/depot-core/src/helpers.rs`) and
verification of the frozen claims about it.

Machine integers are modelled as `Nat` (unsigned) or `Int` (signed) with
explicit `% 2^w` where wrap-around matters.  A seekable byte handle is a
byte list together with a cursor.  The external zstd compressor, the
SeaHash hasher and the reader objects are abstracted as explicit
parameters, mirroring the library interfaces the engine consumes.
-/

set_option maxHeartbeats 1000000

set_option maxRecDepth 100000

namespace Depot

/-! ### Definitions -/

/-- Model of `std::io::ErrorKind` values the engine produces or meets;
`other n` stands for an arbitrary distinct underlying I/O error and
`panicked` models an aborting `unwrap` in deserialization. -/
inductive IOErr where
  | notFound
  | invalidInput
  | permissionDenied
  | invalidData
  | unexpectedEof
  | panicked
  | other (code : Nat)
  deriving DecidableEq, Repr

/-- A seekable byte handle: the underlying bytes and the cursor position.
Models the `SeekRead`/`SeekWrite`/`SeekReadWrite` capabilities. -/
structure Handle where
  data : List Nat
  pos : Nat
  deriving DecidableEq, Repr

namespace Handle

/-- `Write::write_all` at the cursor: overwrites in place and extends at the
end, advancing the cursor by the number of bytes written. -/
def write (h : Handle) (bs : List Nat) : Handle :=
  { data := h.data.take h.pos ++ bs ++ h.data.drop (h.pos + bs.length)
    pos := h.pos + bs.length }

/-- `Seek::seek(SeekFrom::Start(n))`. -/
def seekStart (h : Handle) (n : Nat) : Handle := { h with pos := n }

/-- `Seek::seek(SeekFrom::End(0))`. -/
def seekEnd (h : Handle) : Handle := { h with pos := h.data.length }

end Handle

/-- Big-endian bytes of `n % 256^w`, `w` bytes wide.  Models the
`byteorder`/`neoncore` fixed-width big-endian writers. -/
def beBytes : Nat → Nat → List Nat
  | 0, _ => []
  | w + 1, n => beBytes w (n / 256) ++ [n % 256]

/-- Value of a big-endian byte string.  Models the fixed-width readers. -/
def beVal (bs : List Nat) : Nat := bs.foldl (fun a b => a * 256 + b) 0

/-- `MAGIC = ascii_to_u64_be(b"DEPOTARC")` from `src/depot/src/lib.rs`. -/
def MAGIC : Nat := 0x4445504F54415243

/-- `TsWithTz` from `src/depot-core/src/helpers.rs`: a Unix timestamp and a
timezone offset, both i32 (modelled as `Int` in i32 range). -/
structure TsWithTz where
  ts : Int
  tz : Int
  deriving DecidableEq, Repr

/-- `x as u64` applied to a signed value: two's-complement 64-bit bits. -/
def u64cast (i : Int) : Nat := (i % (2 ^ 64 : Int)).toNat

/-- Low 32 bits reinterpreted as a signed 32-bit value (`x as i32`). -/
def i32ofBits (n : Nat) : Int :=
  if n % 2 ^ 32 < 2 ^ 31 then (n % 2 ^ 32 : Nat) else (n % 2 ^ 32 : Nat) - 2 ^ 32

/-- `TsWithTz::to_u64`: `(self.ts as u64) << 32 | (self.tz as u64)`.
Note the code performs no mask on the sign-extended `tz`. -/
def TsWithTz.to_u64 (t : TsWithTz) : Nat :=
  ((u64cast t.ts <<< 32) % 2 ^ 64) ||| u64cast t.tz

/-- `TsWithTz::from_u64`: `tz = ts & 0xFFFFFFFF; ts = ts >> 32`, both then
cast `as i32`. -/
def TsWithTz.from_u64 (w : Nat) : TsWithTz :=
  { ts := i32ofBits ((w % 2 ^ 64) >>> 32), tz := i32ofBits ((w % 2 ^ 64) &&& 0xFFFFFFFF) }

/-- The packed-timestamp word exactly as the spec words it (§4.2):
`(seconds << 32) | (tz_offset_seconds & 0xFFFFFFFF)`, both halves
interpreted as signed 32-bit (two's-complement bit patterns). -/
def specTimestampWord (seconds tz : Int) : Nat :=
  (((seconds % (2 ^ 32 : Int)).toNat) <<< 32) ||| ((tz % (2 ^ 32 : Int)).toNat)

/-- `EntryInfo` from `src/depot/src/depot_handle.rs`. -/
structure EntryInfo where
  offset : Nat
  size : Nat
  stream_size : Nat
  flags : Nat
  create_ts : TsWithTz
  mod_ts : TsWithTz
  hash : Nat
  deriving DecidableEq, Repr

/-- Entry names; the UTF-8 bytes of the Rust `String` key. -/
abbrev Name := List Nat

/-- Strict byte-lexicographic order on names: the ordering `BTreeMap<String, _>`
iterates by. -/
def byteLt : Name → Name → Bool
  | [], [] => false
  | [], _ :: _ => true
  | _ :: _, [] => false
  | a :: xs, b :: ys => if a < b then true else if b < a then false else byteLt xs ys

/-- `BTreeMap::insert` on the sorted association list that models the map:
keeps keys strictly ascending, replacing an existing binding. -/
def insertEntry (k : Name) (v : EntryInfo) : List (Name × EntryInfo) → List (Name × EntryInfo)
  | [] => [(k, v)]
  | (k', v') :: rest =>
    if byteLt k k' then (k, v) :: (k', v') :: rest
    else if k = k' then (k, v) :: rest
    else (k', v') :: insertEntry k v rest

/-- `BTreeMap::get`. -/
def lookupEntry (k : Name) : List (Name × EntryInfo) → Option EntryInfo
  | [] => none
  | (k', v) :: rest => if k = k' then some v else lookupEntry k rest

/-- `DepotToc` from `src/depot/src/depot_handle.rs`; the entry map is the
sorted association list. -/
structure DepotToc where
  compression_level : Int
  entry_count : Nat
  size : Nat
  entries : List (Name × EntryInfo)
  deriving DecidableEq, Repr

/-- `Default for DepotToc`. -/
def DepotToc.default : DepotToc :=
  { compression_level := 0, entry_count := 0, size := 0, entries := [] }

/-- `DepotHeader`. -/
structure DepotHeader where
  version : Nat
  toc_offset : Nat
  deriving DecidableEq, Repr

/-- `DepotMetadata`. -/
structure DepotMetadata where
  header : DepotHeader
  toc : DepotToc
  deriving DecidableEq, Repr

/-- `StreamInfo`. -/
structure StreamInfo where
  name : Name
  einf : EntryInfo
  deriving DecidableEq, Repr

/-- `OpenMode`. -/
inductive OpenMode where
  | Read
  | Write
  | ReadWrite
  deriving DecidableEq, Repr

/-! ## Wire encoding (`Ser` impls) -/

/-- Signed 32-bit value as its unsigned two's-complement bit pattern
(what `write_values` emits for an `AnyInt::I32`). -/
def i32bits (i : Int) : Nat := (i % (2 ^ 32 : Int)).toNat

/-- `Ser for DepotHeader`: magic, version, toc_offset, big-endian. -/
def DepotHeader.bytes (h : DepotHeader) : List Nat :=
  beBytes 8 MAGIC ++ beBytes 2 h.version ++ beBytes 8 h.toc_offset

/-- `Ser for EntryInfo`: the seven 64-bit fields in declaration order. -/
def EntryInfo.bytes (e : EntryInfo) : List Nat :=
  beBytes 8 e.offset ++ beBytes 8 e.size ++ beBytes 8 e.stream_size ++
    beBytes 8 e.flags ++ beBytes 8 e.create_ts.to_u64 ++
    beBytes 8 e.mod_ts.to_u64 ++ beBytes 8 e.hash

/-- `write_lpstr(LP32, BigEndian)`: 32-bit length then the raw bytes. -/
def lpstrBytes (n : Name) : List Nat := beBytes 4 n.length ++ n

/-- `Ser for DepotToc`: the preamble (`i32` level, `u64` count, `u64` size)
then each `(name, EntryInfo)` pair in key order. -/
def DepotToc.bytes (t : DepotToc) : List Nat :=
  beBytes 4 (i32bits t.compression_level) ++ beBytes 8 t.entry_count ++
    beBytes 8 t.size ++
    (t.entries.map (fun p => lpstrBytes p.1 ++ EntryInfo.bytes p.2)).flatten

/-! ## Wire decoding (`De` impls)

The parsers consume a prefix of the remaining byte stream and return the
value together with the unconsumed suffix; running out of bytes is the
`UnexpectedEof` error that the width-fixed readers raise. -/

/-- Read exactly `n` bytes from the front of the stream. -/
def takeN (n : Nat) (s : List Nat) : Except IOErr (List Nat × List Nat) :=
  if n ≤ s.length then .ok (s.take n, s.drop n) else .error .unexpectedEof

/-- `read_u64::<BigEndian>`. -/
def parseU64 (s : List Nat) : Except IOErr (Nat × List Nat) := do
  let (bs, rest) ← takeN 8 s
  .ok (beVal bs, rest)

/-- 32-bit big-endian read (the `W` of `read_format`, and lpstr lengths). -/
def parseU32 (s : List Nat) : Except IOErr (Nat × List Nat) := do
  let (bs, rest) ← takeN 4 s
  .ok (beVal bs, rest)

/-- `read_u16::<BigEndian>`. -/
def parseU16 (s : List Nat) : Except IOErr (Nat × List Nat) := do
  let (bs, rest) ← takeN 2 s
  .ok (beVal bs, rest)

/-- `read_lpstr(LP32, BigEndian)`. -/
def parseLpstr (s : List Nat) : Except IOErr (Name × List Nat) := do
  let (len, rest) ← parseU32 s
  takeN len rest

/-- `De for DepotHeader`: fails with `InvalidData` when the magic
mismatches. -/
def parseHeader (s : List Nat) : Except IOErr (DepotHeader × List Nat) := do
  let (magic, s1) ← parseU64 s
  if magic ≠ MAGIC then
    .error .invalidData
  else do
    let (version, s2) ← parseU16 s1
    let (toc_offset, s3) ← parseU64 s2
    .ok ({ version := version, toc_offset := toc_offset }, s3)

/-- `De for EntryInfo`: format `"!qqqqqqq"`. -/
def parseEntryInfo (s : List Nat) : Except IOErr (EntryInfo × List Nat) := do
  let (offset, s1) ← parseU64 s
  let (size, s2) ← parseU64 s1
  let (stream_size, s3) ← parseU64 s2
  let (flags, s4) ← parseU64 s3
  let (cts, s5) ← parseU64 s4
  let (mts, s6) ← parseU64 s5
  let (hash, s7) ← parseU64 s6
  .ok ({ offset := offset, size := size, stream_size := stream_size,
         flags := flags, create_ts := TsWithTz.from_u64 cts,
         mod_ts := TsWithTz.from_u64 mts, hash := hash }, s7)

/-- The entry loop of `De for DepotToc`: read `count` records, inserting
each into the map. -/
def parseTocEntries : Nat → List Nat → List (Name × EntryInfo) →
    Except IOErr (List (Name × EntryInfo) × List Nat)
  | 0, s, m => .ok (m, s)
  | n + 1, s, m => do
    let (name, s1) ← parseLpstr s
    let (e, s2) ← parseEntryInfo s1
    parseTocEntries n s2 (insertEntry name e m)

/-- `De for DepotToc`: format `"!Wqq"` preamble, then the entry loop.  The
`read[0].try_into().unwrap()` to `i32` aborts for level bits ≥ 2^31;
that abort is modelled as the `panicked` outcome. -/
def parseToc (s : List Nat) : Except IOErr (DepotToc × List Nat) := do
  let (levelBits, s1) ← parseU32 s
  if levelBits < 2 ^ 31 then do
    let (count, s2) ← parseU64 s1
    let (size, s3) ← parseU64 s2
    let (entries, s4) ← parseTocEntries count s3 []
    .ok ({ compression_level := (levelBits : Int), entry_count := count,
           size := size, entries := entries }, s4)
  else
    .error .panicked

/-! ## External collaborators: readers, the compressor, the hasher

The zstd encoder/decoder and the SeaHash hasher are external libraries
(spec §6); they are abstracted as explicit parameters.  A `Reader` models
a `Read + Seek` source: the sequence of results its successive `read`
calls produce, plus the full contents seen after a rewind. -/

/-- One `read` call result: a chunk of bytes, or an I/O error. -/
abbrev ReadRes := Except IOErr (List Nat)

/-- A seekable byte source fed to `add_named_sized_stream`. -/
structure Reader where
  results : List ReadRes
  content : List Nat

/-- Chunking worker, structurally recursive on a fuel bound so that it
reduces inside the kernel. -/
def chunksOfAux (k : Nat) : Nat → List Nat → List (List Nat)
  | 0, _ => []
  | _, [] => []
  | fuel + 1, l => l.take k :: chunksOfAux k fuel (l.drop k)

/-- Split a list into chunks of at most `k` bytes; how a buffered reader
of buffer size `k` delivers a byte string. -/
def chunksOf (k : Nat) (l : List Nat) : List (List Nat) :=
  if k = 0 then [] else chunksOfAux k l.length l

/-- An error-free reader over the byte string `b`, read through a buffer
of size `k`. -/
def Reader.ofBytes (k : Nat) (b : List Nat) : Reader :=
  { results := (chunksOf k b).map Except.ok, content := b }

/-- The block-compression library interface (spec §4.5/§6): a streaming
encoder, summarized by the bytes `finish()` has emitted for a given input,
and a streaming decoder, summarized by the sequence of `read` results it
yields when started on a given byte stream. -/
structure Codec where
  compress : Int → List Nat → List Nat
  decompress : List Nat → List ReadRes

/-- Modelled from the spec: the one-shot `hash(reader) → u64` helper of the
depot crate's `helpers` module (its source file is not under `src/`; spec
§6 describes it as a seedable 64-bit hash that consumes a reader to EOF).
It and the incremental SeaHasher are abstracted as one function from the
hashed bytes to the 64-bit digest, applied to the reader's full contents
after the rewind. -/
def oneShotHash (hashFn : List Nat → Nat) (r : Reader) : Nat := hashFn r.content

/-! ## The depot handle and its operations -/

/-- `DepotHandle` (the in-memory state; the boxed byte handle is the
`Handle`). -/
structure DepotHandle where
  metadata : DepotMetadata
  mode : OpenMode
  header_offset : Nat
  mt_threads : Nat
  compression_frame_size : Nat
  handle : Handle
  deriving Repr

namespace DepotHandle

/-- Handle-level `DepotHeader::de`: parse at the cursor, advance past the
consumed prefix. -/
def deHeader (h : Handle) : Except IOErr (DepotHeader × Handle) :=
  match parseHeader (h.data.drop h.pos) with
  | .ok (x, rest) => .ok (x, { h with pos := h.data.length - rest.length })
  | .error e => .error e

/-- Handle-level `DepotToc::de`. -/
def deToc (h : Handle) : Except IOErr (DepotToc × Handle) :=
  match parseToc (h.data.drop h.pos) with
  | .ok (x, rest) => .ok (x, { h with pos := h.data.length - rest.length })
  | .error e => .error e

/-- `DepotHandle::new`: record `header_offset`, parse the header, seek to
`toc_offset`, parse the TOC. -/
def new (handle : Handle) (mode : OpenMode) : Except IOErr DepotHandle := do
  let header_offset := handle.pos
  let (header, h1) ← deHeader handle
  let h2 := h1.seekStart header.toc_offset
  let (toc, h3) ← deToc h2
  .ok { metadata := { header := header, toc := toc }, mode := mode,
        header_offset := header_offset, mt_threads := 1,
        compression_frame_size := 8192, handle := h3 }

/-- `DepotHandle::create`: record `header_offset`, write a header stub with
`version = 1` and the sentinel `toc_offset = !0`, default TOC. -/
def create (handle : Handle) : DepotHandle :=
  let header_offset := handle.pos
  let header : DepotHeader := { version := 1, toc_offset := 2 ^ 64 - 1 }
  { metadata := { header := header, toc := DepotToc.default },
    mode := .ReadWrite, header_offset := header_offset, mt_threads := 1,
    compression_frame_size := 8192,
    handle := handle.write header.bytes }

/-- The `while let Ok(n) = reader.read(&mut buf)` copy loop of
`add_named_sized_stream`: returns `writen` (the count of uncompressed
bytes fed to the compressor) and the fed bytes themselves.  An `Err`
result ends the loop, exactly as the `while let` does. -/
def readLoop : List ReadRes → Nat × List Nat
  | [] => (0, [])
  | .error _ :: _ => (0, [])
  | .ok c :: rest =>
    if c.length = 0 then (0, [])
    else
      let (w, f) := readLoop rest
      (c.length + w, c ++ f)

/-- `DepotHandle::add_named_sized_stream`: compress the reader's bytes at
the current position, rewind and hash the reader, record the entry.
The `progress` callback has no effect on the state and is omitted. -/
def add_named_sized_stream (codec : Codec) (hashFn : List Nat → Nat)
    (d : DepotHandle) (name : Name) (reader : Reader) (size : Nat)
    (now : TsWithTz) : Except IOErr DepotHandle :=
  let before := d.handle.pos
  let wr := readLoop reader.results
  let handle := d.handle.write (codec.compress d.metadata.toc.compression_level wr.2)
  let h := oneShotHash hashFn reader
  let entry : EntryInfo :=
    { offset := before, size := size, stream_size := wr.1, flags := 0,
      create_ts := now, mod_ts := now, hash := h }
  .ok { d with
        handle := handle
        metadata := { d.metadata with toc :=
          { d.metadata.toc with
            entries := insertEntry name entry d.metadata.toc.entries
            entry_count := d.metadata.toc.entry_count + 1
            size := d.metadata.toc.size + size } } }

/-- The filesystem facts `add_file` inspects about its path argument. -/
structure FsFile where
  isDir : Bool
  fileExists : Bool
  isFile : Bool
  content : List Nat
  deriving Repr

/-- `DepotHandle::add_file`: mode and path checks, then either the
zero-size branch (which serializes the `EntryInfo` into the handle at the
current position) or delegation to `add_named_sized_stream` through a
buffered reader of `compression_frame_size` bytes. -/
def add_file (codec : Codec) (hashFn : List Nat → Nat) (d : DepotHandle)
    (path : Name) (f : FsFile) (now : TsWithTz) : Except IOErr DepotHandle :=
  if d.mode = .Read then .error .permissionDenied
  else if f.isDir then .error .invalidInput
  else if !f.fileExists then .error .notFound
  else if !f.isFile then .error .invalidInput
  else
    let size := f.content.length
    let before := d.handle.pos
    if size = 0 then
      let entry : EntryInfo :=
        { offset := before, size := 0, stream_size := 0, flags := 1,
          create_ts := now, mod_ts := now, hash := 2 ^ 64 - 1 }
      .ok { d with
            handle := d.handle.write entry.bytes
            metadata := { d.metadata with toc :=
              { d.metadata.toc with
                entry_count := d.metadata.toc.entry_count + 1
                entries := insertEntry path entry d.metadata.toc.entries } } }
    else
      add_named_sized_stream codec hashFn d path
        (Reader.ofBytes d.compression_frame_size f.content) size now

/-- `DepotHandle::get_named_stream`. -/
def get_named_stream (d : DepotHandle) (name : Name) : Option StreamInfo :=
  match lookupEntry name d.metadata.toc.entries with
  | some e => some { name := name, einf := e }
  | none => none

/-- `DepotHandle::stream_count`. -/
def stream_count (d : DepotHandle) : Nat := d.metadata.toc.entry_count

/-- The `while let Ok(n) = decompressor.read(&mut buf)` loop of
`extract_stream`: threads the running `read` count, the writer and the
hashed chunks, with the source's exact check order (overflow trim before
the zero test; an `Err` result ends the loop). -/
def extractLoop (size : Nat) : List ReadRes → Nat → Handle → List (List Nat) →
    Nat × Handle × List (List Nat)
  | [], read, w, hs => (read, w, hs)
  | .error _ :: _, read, w, hs => (read, w, hs)
  | .ok c :: rest, read, w, hs =>
    let n := c.length
    if size < read + n then (read, w.write (c.take (size - read)), hs)
    else if n = 0 then (read, w, hs)
    else extractLoop size rest (read + n) (w.write c) (hs ++ [c])

/-- `DepotHandle::extract_stream`: early success for `flags == 1`, else
seek to the entry's offset, decompress, copy with trimming, then the
uncompressed-size and hash checks.  Returns the result together with the
mutated depot handle and writer. -/
def extract_stream (codec : Codec) (hashFn : List Nat → Nat)
    (d : DepotHandle) (si : StreamInfo) (writer : Handle) :
    Except IOErr Unit × DepotHandle × Handle :=
  let entry := si.einf
  if entry.flags = 1 then (.ok (), d, writer)
  else
    let handle := d.handle.seekStart entry.offset
    let results := codec.decompress (handle.data.drop entry.offset)
    let res := extractLoop entry.size results 0 writer []
    let writer1 := res.2.1
    let hashed := res.2.2
    let d1 := { d with handle := handle }
    if writer1.pos ≠ entry.size then (.error .invalidData, d1, writer1)
    else if hashFn hashed.flatten ≠ entry.hash then (.error .invalidData, d1, writer1)
    else (.ok (), d1, writer1)

/-- `DepotHandle::finalize`: seek to end-of-file, record the TOC offset,
serialize the TOC, seek to absolute 0, rewrite the header with the new
`toc_offset`. -/
def finalize (d : DepotHandle) : DepotHandle :=
  let handle := d.handle.seekEnd
  let toc_offset := handle.pos
  let handle := handle.write d.metadata.toc.bytes
  let handle := handle.seekStart 0
  let header := { d.metadata.header with toc_offset := toc_offset }
  let handle := handle.write header.bytes
  { d with
    handle := handle
    metadata := { d.metadata with header := header } }

end DepotHandle

/-! ## Concrete instances used by counterexamples and witnesses -/

/-- A concrete 64-bit hash function (stands in for SeaHash in concrete
runs; the engine treats the hash as an interchangeable library). -/
def demoHash (l : List Nat) : Nat := (l.foldl (fun a b => a * 181 + b) 5381) % 2 ^ 64

/-- A concrete self-delimiting codec: a stored frame with an 8-byte
big-endian length prefix; its decoder yields the whole payload in one
read and ignores trailing bytes. -/
def storeCodec : Codec where
  compress := fun _ b => beBytes 8 b.length ++ b
  decompress := fun s =>
    let n := beVal (s.take 8)
    let p := (s.drop 8).take n
    if p = [] then [] else [Except.ok p]

/-- A codec whose decoder immediately reports an underlying I/O error. -/
def errCodec : Codec where
  compress := fun _ b => b
  decompress := fun _ => [Except.error (IOErr.other 7)]

/-- A fixed wall-clock instant for concrete runs. -/
def ts0 : TsWithTz := ⟨0, 0⟩

/-- The value an `EntryInfo` becomes after one serialize/deserialize
round-trip: every `u64` field reduced mod `2^64` and the timestamps sent
through the packed-word codec. -/
def roundE (e : EntryInfo) : EntryInfo :=
  { offset := e.offset % 2 ^ 64
    size := e.size % 2 ^ 64
    stream_size := e.stream_size % 2 ^ 64
    flags := e.flags % 2 ^ 64
    create_ts := TsWithTz.from_u64 e.create_ts.to_u64
    mod_ts := TsWithTz.from_u64 e.mod_ts.to_u64
    hash := e.hash % 2 ^ 64 }

/-! ## Ordered-map lemmas -/

/-- The key list of the entry map. -/
def keysOf (m : List (Name × EntryInfo)) : List Name := m.map Prod.fst

/-- Key-ordering relation between map entries. -/
def keyLt (p q : Name × EntryInfo) : Prop := byteLt p.1 q.1 = true

/-- The map representation invariant: keys strictly ascending. -/
def SortedMap (m : List (Name × EntryInfo)) : Prop := m.Pairwise keyLt

/-- `l.foldl insert` starting from the map `m`: how both the append
sequence and TOC deserialization populate the map. -/
def insertAll (m l : List (Name × EntryInfo)) : List (Name × EntryInfo) :=
  l.foldl (fun acc p => insertEntry p.1 p.2 acc) m

/-- A non-empty entry's contribution to the TOC `size` total. -/
def entryWeight (e : EntryInfo) : Nat := if e.flags &&& 1 = 0 then e.size else 0

/-- Sum of the non-empty entries' uncompressed sizes. -/
def sumSizes (m : List (Name × EntryInfo)) : Nat :=
  (m.map (fun p => entryWeight p.2)).sum

/-! ## TOC serialization round-trip -/

/-- The serialized entry records of a map, in iteration order. -/
def serEntries (l : List (Name × EntryInfo)) : List Nat :=
  (l.map (fun p => lpstrBytes p.1 ++ EntryInfo.bytes p.2)).flatten

/-- The per-entry round-trip applied across a map. -/
def roundEntries (l : List (Name × EntryInfo)) : List (Name × EntryInfo) :=
  l.map (fun p => (p.1, roundE p.2))

/-! ## The invariant I6 and append sequences -/

/-- Invariant I6 of the spec: the TOC's `entry_count` equals the number of
entries in the map (what serialization emits), and its `size` is the sum
of the non-empty entries' uncompressed sizes. -/
def I6 (t : DepotToc) : Prop :=
  t.entry_count = t.entries.length ∧ t.size = sumSizes t.entries

/-- One append operation: either `add_named_sized_stream` or `add_file`. -/
inductive AppendOp where
  | stream (name : Name) (reader : Reader) (size : Nat) (now : TsWithTz)
  | file (path : Name) (f : DepotHandle.FsFile) (now : TsWithTz)

/-- The TOC key an operation inserts. -/
def AppendOp.name : AppendOp → Name
  | .stream n _ _ _ => n
  | .file p _ _ => p

/-- Run one append operation. -/
def AppendOp.run (codec : Codec) (hashFn : List Nat → Nat)
    (d : DepotHandle) : AppendOp → Except IOErr DepotHandle
  | .stream n rdr sz now => DepotHandle.add_named_sized_stream codec hashFn d n rdr sz now
  | .file p f now => DepotHandle.add_file codec hashFn d p f now

/-- Run a sequence of append operations. -/
def applyOps (codec : Codec) (hashFn : List Nat → Nat)
    (d : DepotHandle) : List AppendOp → Except IOErr DepotHandle
  | [] => .ok d
  | op :: rest => do
    let d' ← op.run codec hashFn d
    applyOps codec hashFn d' rest

/-! ## The build pipeline for the round-trip property -/

/-- The concatenated compressed frames a pair list appends (level 0, the
created depot's default). -/
def framesOf (codec : Codec) (pairs : List (Name × List Nat)) : List Nat :=
  (pairs.map (fun nb => codec.compress 0 nb.2)).flatten

/-- The entries the append sequence records, with the first frame starting
at byte offset `pos`. -/
def specEntries (codec : Codec) (hashFn : List Nat → Nat) (now : TsWithTz) :
    Nat → List (Name × List Nat) → List (Name × EntryInfo)
  | _, [] => []
  | pos, (n, b) :: rest =>
    (n, { offset := pos, size := b.length, stream_size := b.length, flags := 0,
          create_ts := now, mod_ts := now, hash := hashFn b }) ::
      specEntries codec hashFn now (pos + (codec.compress 0 b).length) rest

/-- Append every pair through `add_named_sized_stream` with the default
8192-byte read buffer and the payload's true length. -/
def appendAll (codec : Codec) (hashFn : List Nat → Nat) (now : TsWithTz)
    (d : DepotHandle) : List (Name × List Nat) → Except IOErr DepotHandle
  | [] => .ok d
  | (n, b) :: rest => do
    let d' ← DepotHandle.add_named_sized_stream codec hashFn d n
      (Reader.ofBytes 8192 b) b.length now
    appendAll codec hashFn now d' rest

/-- Create a depot on an empty handle, append all pairs, finalize; the
resulting file bytes. -/
def buildFile (codec : Codec) (hashFn : List Nat → Nat) (now : TsWithTz)
    (pairs : List (Name × List Nat)) : List Nat :=
  match appendAll codec hashFn now (DepotHandle.create ⟨[], 0⟩) pairs with
  | .ok d => (DepotHandle.finalize d).handle.data
  | .error _ => []

/-- Reopen a depot file and extract one name into a fresh writer. -/
def reopenExtract (codec : Codec) (hashFn : List Nat → Nat)
    (file : List Nat) (name : Name) : Except IOErr (List Nat) :=
  match DepotHandle.new ⟨file, 0⟩ .Read with
  | .error e => .error e
  | .ok d =>
    match DepotHandle.get_named_stream d name with
    | none => .error .notFound
    | some si =>
      match DepotHandle.extract_stream codec hashFn d si ⟨[], 0⟩ with
      | (.ok _, _, w) => .ok w.data
      | (.error e, _, _) => .error e

/-- The state after one `add_named_sized_stream` of the byte string `b`
on a level-0 depot. -/
def addedState (codec : Codec) (hashFn : List Nat → Nat) (d : DepotHandle)
    (n : Name) (b : List Nat) (now : TsWithTz) : DepotHandle :=
  { d with
    handle := d.handle.write (codec.compress 0 b)
    metadata := { d.metadata with toc := { d.metadata.toc with
      entries := insertEntry n
        { offset := d.handle.pos, size := b.length, stream_size := b.length,
          flags := 0, create_ts := now, mod_ts := now, hash := hashFn b }
        d.metadata.toc.entries
      entry_count := d.metadata.toc.entry_count + 1
      size := d.metadata.toc.size + b.length } } }

/-! ## Fixtures and helpers for the concrete runs -/

/-- The "hello\n" payload bytes. -/
def helloBytes : List Nat := [104, 101, 108, 108, 111, 10]

/-- A depot whose handle holds one stored frame of `[1, 2, 3]`. -/
def dC9 : DepotHandle :=
  { metadata := { header := ⟨1, 0⟩, toc := DepotToc.default }, mode := .Read,
    header_offset := 0, mt_threads := 1, compression_frame_size := 8192,
    handle := ⟨storeCodec.compress 0 [1, 2, 3], 0⟩ }

/-- An entry with bit 0 of `flags` set alongside bit 1 (`flags = 3`). -/
def siC9 : StreamInfo := ⟨[97], ⟨0, 5, 0, 3, ts0, ts0, 0⟩⟩

/-- A plain empty entry (`flags = 1`). -/
def siC9w : StreamInfo := ⟨[97], ⟨0, 0, 0, 1, ts0, ts0, 2 ^ 64 - 1⟩⟩

/-- A byte file with a valid magic, version 9, and an empty TOC at 18. -/
def fileV9 : List Nat :=
  beBytes 8 MAGIC ++ beBytes 2 9 ++ beBytes 8 18 ++ DepotToc.bytes DepotToc.default

/-- Two appends under the same name. -/
def opsC5 : List AppendOp :=
  [.stream [97] (Reader.ofBytes 8192 [1]) 1 ts0,
   .stream [97] (Reader.ofBytes 8192 [1]) 1 ts0]

/-- One append of a fresh name. -/
def opsW5 : List AppendOp := [.stream [97] (Reader.ofBytes 8192 [1]) 1 ts0]

/-- The state after running `opsW5` on a fresh depot. -/
def dW5 : DepotHandle :=
  match applyOps storeCodec demoHash (DepotHandle.create ⟨[], 0⟩) opsW5 with
  | .ok d => d
  | .error _ => DepotHandle.create ⟨[], 0⟩

/-- Two distinct named payloads for the concrete round trip. -/
def pairsW : List (Name × List Nat) := [([97], [1, 2]), ([98], [3])]

/-! ### Lemmas and claim theorems -/

/-! ## Byte-codec lemmas -/

theorem length_beBytes (w n : Nat) : (beBytes w n).length = w := by
  induction w generalizing n with
  | zero => rfl
  | succ w ih => simp [beBytes, ih]

theorem beVal_append_single (l : List Nat) (b : Nat) :
    beVal (l ++ [b]) = beVal l * 256 + b := by
  simp [beVal, List.foldl_append]

theorem beVal_beBytes (w n : Nat) : beVal (beBytes w n) = n % 256 ^ w := by
  induction w generalizing n with
  | zero => simp [beBytes, beVal, Nat.mod_one]
  | succ w ih =>
    rw [beBytes, beVal_append_single, ih]
    rw [pow_succ, Nat.mul_comm (256 ^ w) 256, Nat.mod_mul]
    ring

theorem takeN_append (bs r : List Nat) : takeN bs.length (bs ++ r) = .ok (bs, r) := by
  simp [takeN]

theorem bind_ok_eq {ε α β : Type} (a : α) (f : α → Except ε β) :
    ((Except.ok a : Except ε α) >>= f) = f a := rfl

theorem parseU64_append (n : Nat) (r : List Nat) :
    parseU64 (beBytes 8 n ++ r) = .ok (n % 2 ^ 64, r) := by
  have h := takeN_append (beBytes 8 n) r
  rw [length_beBytes] at h
  simp only [parseU64, h, bind_ok_eq, beVal_beBytes]
  norm_num

theorem parseU32_append (n : Nat) (r : List Nat) :
    parseU32 (beBytes 4 n ++ r) = .ok (n % 2 ^ 32, r) := by
  have h := takeN_append (beBytes 4 n) r
  rw [length_beBytes] at h
  simp only [parseU32, h, bind_ok_eq, beVal_beBytes]
  norm_num

theorem parseU16_append (n : Nat) (r : List Nat) :
    parseU16 (beBytes 2 n ++ r) = .ok (n % 2 ^ 16, r) := by
  have h := takeN_append (beBytes 2 n) r
  rw [length_beBytes] at h
  simp only [parseU16, h, bind_ok_eq, beVal_beBytes]
  norm_num

theorem parseLpstr_append (n : Name) (r : List Nat) (hn : n.length < 2 ^ 32) :
    parseLpstr (lpstrBytes n ++ r) = .ok (n, r) := by
  have h := takeN_append n r
  simp only [parseLpstr, lpstrBytes, List.append_assoc, parseU32_append,
    Nat.mod_eq_of_lt hn, bind_ok_eq, h]

theorem parseHeader_append (h : DepotHeader) (r : List Nat) :
    parseHeader (h.bytes ++ r) =
      .ok ({ version := h.version % 2 ^ 16, toc_offset := h.toc_offset % 2 ^ 64 }, r) := by
  have hm : MAGIC % 2 ^ 64 = MAGIC := by norm_num [MAGIC]
  rw [parseHeader, DepotHeader.bytes, List.append_assoc, List.append_assoc,
    parseU64_append, hm, bind_ok_eq]
  simp only []
  rw [if_neg (by simp)]
  rw [parseU16_append, bind_ok_eq]
  simp only []
  rw [parseU64_append, bind_ok_eq]

theorem from_u64_mod (x : Nat) :
    TsWithTz.from_u64 (x % 2 ^ 64) = TsWithTz.from_u64 x := by
  simp [TsWithTz.from_u64, Nat.mod_mod]

theorem parseEntryInfo_append (e : EntryInfo) (r : List Nat) :
    parseEntryInfo (e.bytes ++ r) = .ok (roundE e, r) := by
  rw [parseEntryInfo, EntryInfo.bytes]
  repeat rw [List.append_assoc]
  repeat (rw [parseU64_append, bind_ok_eq]; simp only [])
  rw [from_u64_mod, from_u64_mod, roundE]

theorem length_headerBytes (h : DepotHeader) : h.bytes.length = 18 := by
  simp [DepotHeader.bytes, length_beBytes]

theorem length_entryBytes (e : EntryInfo) : e.bytes.length = 56 := by
  simp [EntryInfo.bytes, length_beBytes]

theorem byteLt_irrefl (a : Name) : byteLt a a = false := by
  induction a with
  | nil => rfl
  | cons x xs ih => simp [byteLt, ih]

theorem byteLt_asymm {a b : Name} (h : byteLt a b = true) : byteLt b a = false := by
  induction a generalizing b with
  | nil =>
    cases b with
    | nil => simp [byteLt] at h
    | cons y ys => rfl
  | cons x xs ih =>
    cases b with
    | nil => simp [byteLt] at h
    | cons y ys =>
      rcases Nat.lt_trichotomy x y with hxy | hxy | hxy
      · simp [byteLt, hxy, Nat.lt_asymm hxy]
      · subst hxy
        simp only [byteLt, if_neg (lt_irrefl x)] at h ⊢
        exact ih h
      · simp [byteLt, hxy, Nat.lt_asymm hxy] at h

theorem byteLt_total {a b : Name} (h1 : byteLt a b = false) (h2 : a ≠ b) :
    byteLt b a = true := by
  induction a generalizing b with
  | nil =>
    cases b with
    | nil => exact absurd rfl h2
    | cons y ys => simp [byteLt] at h1
  | cons x xs ih =>
    cases b with
    | nil => rfl
    | cons y ys =>
      rcases Nat.lt_trichotomy x y with hxy | hxy | hxy
      · simp [byteLt, hxy] at h1
      · subst hxy
        simp only [byteLt, if_neg (lt_irrefl x)] at h1 ⊢
        refine ih h1 ?_
        intro hc
        exact h2 (by rw [hc])
      · simp [byteLt, hxy, Nat.lt_asymm hxy]

theorem byteLt_trans {a b c : Name} (h1 : byteLt a b = true)
    (h2 : byteLt b c = true) : byteLt a c = true := by
  induction a generalizing b c with
  | nil =>
    cases b with
    | nil => simp [byteLt] at h1
    | cons y ys =>
      cases c with
      | nil => simp [byteLt] at h2
      | cons z zs => rfl
  | cons x xs ih =>
    cases b with
    | nil => simp [byteLt] at h1
    | cons y ys =>
      cases c with
      | nil => simp [byteLt] at h2
      | cons z zs =>
        rcases Nat.lt_trichotomy x y with hxy | hxy | hxy
        · rcases Nat.lt_trichotomy y z with hyz | hyz | hyz
          · simp [byteLt, Nat.lt_trans hxy hyz]
          · subst hyz
            simp [byteLt, hxy]
          · simp [byteLt, hyz, Nat.lt_asymm hyz] at h2
        · subst hxy
          rcases Nat.lt_trichotomy x z with hxz | hxz | hxz
          · simp [byteLt, hxz]
          · subst hxz
            simp only [byteLt, if_neg (lt_irrefl x)] at h1 h2 ⊢
            exact ih h1 h2
          · simp [byteLt, hxz, Nat.lt_asymm hxz] at h2
        · simp [byteLt, hxy, Nat.lt_asymm hxy] at h1

theorem lookup_insert (k k' : Name) (v : EntryInfo) (m : List (Name × EntryInfo)) :
    lookupEntry k (insertEntry k' v m) =
      if k = k' then some v else lookupEntry k m := by
  induction m with
  | nil => simp [insertEntry, lookupEntry]
  | cons p rest ih =>
    obtain ⟨k0, v0⟩ := p
    rw [insertEntry]
    by_cases h1 : byteLt k' k0 = true
    · rw [if_pos h1, lookupEntry]
    · rw [if_neg (by simpa using h1)]
      by_cases h2 : k' = k0
      · subst h2
        rw [if_pos rfl, lookupEntry, lookupEntry]
        by_cases h3 : k = k'
        · simp [h3]
        · simp [h3]
      · rw [if_neg h2, lookupEntry, lookupEntry]
        by_cases h3 : k = k0
        · have hkk' : ¬ k = k' := by
            intro hc
            exact h2 (hc ▸ h3)
          rw [if_pos h3, if_neg hkk', if_pos h3]
        · rw [if_neg h3, if_neg h3, ih]

theorem mem_keys_insert (a k : Name) (v : EntryInfo) (m : List (Name × EntryInfo)) :
    a ∈ keysOf (insertEntry k v m) ↔ a = k ∨ a ∈ keysOf m := by
  induction m with
  | nil => simp [insertEntry, keysOf]
  | cons p rest ih =>
    obtain ⟨k0, v0⟩ := p
    rw [insertEntry]
    by_cases h1 : byteLt k k0 = true
    · rw [if_pos h1]
      simp [keysOf]
    · rw [if_neg (by simpa using h1)]
      by_cases h2 : k = k0
      · rw [if_pos h2]
        subst h2
        simp [keysOf]
      · rw [if_neg h2]
        simp only [keysOf, List.map_cons, List.mem_cons] at ih ⊢
        rw [ih]
        tauto

theorem length_insert_not_mem (k : Name) (v : EntryInfo)
    (m : List (Name × EntryInfo)) (h : k ∉ keysOf m) :
    (insertEntry k v m).length = m.length + 1 := by
  induction m with
  | nil => rfl
  | cons p rest ih =>
    obtain ⟨k0, v0⟩ := p
    simp only [keysOf, List.map_cons, List.mem_cons, not_or] at h
    rw [insertEntry]
    by_cases h1 : byteLt k k0 = true
    · rw [if_pos h1]
      rfl
    · rw [if_neg (by simpa using h1), if_neg h.1]
      simp only [List.length_cons]
      rw [ih h.2]

/-- Membership in the result of an insertion. -/
theorem mem_insert {p : Name × EntryInfo} {k : Name} {v : EntryInfo}
    {m : List (Name × EntryInfo)} (h : p ∈ insertEntry k v m) :
    p = (k, v) ∨ p ∈ m := by
  induction m with
  | nil => simpa [insertEntry] using h
  | cons q rest ih =>
    obtain ⟨k0, v0⟩ := q
    rw [insertEntry] at h
    by_cases h1 : byteLt k k0 = true
    · rw [if_pos h1] at h
      rcases List.mem_cons.mp h with h | h
      · exact Or.inl h
      · exact Or.inr h
    · rw [if_neg (by simpa using h1)] at h
      by_cases h2 : k = k0
      · rw [if_pos h2] at h
        rcases List.mem_cons.mp h with h | h
        · exact Or.inl h
        · exact Or.inr (List.mem_cons_of_mem _ h)
      · rw [if_neg h2] at h
        rcases List.mem_cons.mp h with h | h
        · exact Or.inr (h ▸ List.mem_cons_self _ _)
        · rcases ih h with h' | h'
          · exact Or.inl h'
          · exact Or.inr (List.mem_cons_of_mem _ h')

theorem sortedMap_insert {k : Name} {v : EntryInfo}
    {m : List (Name × EntryInfo)} (h : SortedMap m) :
    SortedMap (insertEntry k v m) := by
  induction m with
  | nil => simp [insertEntry, SortedMap]
  | cons q rest ih =>
    obtain ⟨k0, v0⟩ := q
    rw [SortedMap, List.pairwise_cons] at h
    rw [insertEntry]
    by_cases h1 : byteLt k k0 = true
    · rw [if_pos h1]
      refine List.Pairwise.cons ?_ (List.Pairwise.cons h.1 h.2)
      intro q hq
      rcases List.mem_cons.mp hq with hq | hq
      · rw [hq]
        exact h1
      · exact byteLt_trans h1 (h.1 q hq)
    · rw [if_neg (by simpa using h1)]
      by_cases h2 : k = k0
      · rw [if_pos h2]
        subst h2
        exact List.Pairwise.cons h.1 h.2
      · rw [if_neg h2]
        have hk0k : byteLt k0 k = true := byteLt_total (by simpa using h1) h2
        refine List.Pairwise.cons ?_ (ih h.2)
        intro q hq
        rcases mem_insert hq with h' | h'
        · rw [h']
          exact hk0k
        · exact h.1 q h'

theorem insert_append_of_lt {k : Name} {v : EntryInfo}
    {m : List (Name × EntryInfo)} (h : ∀ p ∈ m, byteLt p.1 k = true) :
    insertEntry k v m = m ++ [(k, v)] := by
  induction m with
  | nil => rfl
  | cons q rest ih =>
    obtain ⟨k0, v0⟩ := q
    have hk0 : byteLt k0 k = true := h (k0, v0) (List.mem_cons_self _ _)
    have h1 : byteLt k k0 = false := byteLt_asymm hk0
    have h2 : k ≠ k0 := by
      intro hc
      subst hc
      rw [byteLt_irrefl] at hk0
      exact Bool.false_ne_true hk0
    rw [insertEntry, if_neg (by simp [h1]), if_neg h2,
      ih (fun p hp => h p (List.mem_cons_of_mem _ hp))]
    rfl

theorem insertAll_nil (m : List (Name × EntryInfo)) : insertAll m [] = m := rfl

theorem insertAll_cons (m : List (Name × EntryInfo)) (p : Name × EntryInfo)
    (l : List (Name × EntryInfo)) :
    insertAll m (p :: l) = insertAll (insertEntry p.1 p.2 m) l := rfl

/-- Inserting an already-sorted run after a compatible prefix is an
append; deserializing a serialized sorted map rebuilds it verbatim. -/
theorem insertAll_eq_append (l m : List (Name × EntryInfo))
    (h : SortedMap (m ++ l)) : insertAll m l = m ++ l := by
  induction l generalizing m with
  | nil => simp [insertAll_nil]
  | cons p l' ih =>
    rw [insertAll_cons]
    rw [SortedMap, List.pairwise_append] at h
    have hlt : ∀ q ∈ m, byteLt q.1 p.1 = true := by
      intro q hq
      exact h.2.2 q hq p (List.mem_cons_self _ _)
    rw [insert_append_of_lt hlt]
    have hsorted : SortedMap ((m ++ [p]) ++ l') := by
      rw [List.append_assoc, SortedMap, List.pairwise_append]
      refine ⟨h.1, h.2.1, ?_⟩
      intro a ha b hb
      exact h.2.2 a ha b hb
    rw [ih (m ++ [p]) hsorted, List.append_assoc]
    rfl

theorem lookup_insertAll_not_mem {k : Name} {l m : List (Name × EntryInfo)}
    (h : k ∉ keysOf l) :
    lookupEntry k (insertAll m l) = lookupEntry k m := by
  induction l generalizing m with
  | nil => rfl
  | cons p l' ih =>
    simp only [keysOf, List.map_cons, List.mem_cons, not_or] at h
    rw [insertAll_cons, ih h.2, lookup_insert, if_neg h.1]

theorem lookup_insertAll_mem {k : Name} {v : EntryInfo}
    {l m : List (Name × EntryInfo)} (hnd : (keysOf l).Nodup)
    (hmem : (k, v) ∈ l) :
    lookupEntry k (insertAll m l) = some v := by
  induction l generalizing m with
  | nil => simp at hmem
  | cons p l' ih =>
    rw [keysOf, List.map_cons, List.nodup_cons] at hnd
    rcases List.mem_cons.mp hmem with h | h
    · subst h
      have hnotin : k ∉ keysOf l' := hnd.1
      rw [insertAll_cons, lookup_insertAll_not_mem hnotin, lookup_insert,
        if_pos rfl]
    · exact insertAll_cons _ _ _ ▸ ih hnd.2 h

theorem sumSizes_insert_not_mem (k : Name) (v : EntryInfo)
    (m : List (Name × EntryInfo)) (h : k ∉ keysOf m) :
    sumSizes (insertEntry k v m) = sumSizes m + entryWeight v := by
  induction m with
  | nil => simp [insertEntry, sumSizes]
  | cons p rest ih =>
    obtain ⟨k0, v0⟩ := p
    simp only [keysOf, List.map_cons, List.mem_cons, not_or] at h
    rw [insertEntry]
    by_cases h1 : byteLt k k0 = true
    · rw [if_pos h1]
      simp [sumSizes]
      ring
    · rw [if_neg (by simpa using h1), if_neg h.1]
      simp only [sumSizes, List.map_cons, List.sum_cons] at ih ⊢
      rw [ih h.2]
      ring

/-! ## Handle and copy-loop lemmas -/

theorem Handle.write_pos (h : Handle) (bs : List Nat) :
    (h.write bs).pos = h.pos + bs.length := rfl

theorem Handle.write_nil (h : Handle) : h.write [] = h := by
  simp [Handle.write]

/-- Writing with the cursor at end-of-data appends. -/
theorem Handle.write_at_end (h : Handle) (bs : List Nat)
    (hp : h.pos = h.data.length) :
    h.write bs = ⟨h.data ++ bs, h.pos + bs.length⟩ := by
  simp [Handle.write, hp, List.drop_eq_nil_of_le]

/-- The append copy loop consumes an error-free chunked reader whole:
`writen` is the total byte count and the compressor input is the
concatenation. -/
theorem readLoop_chunksAux (k : Nat) (hk : 0 < k) :
    ∀ fuel l, l.length ≤ fuel →
      DepotHandle.readLoop ((chunksOfAux k fuel l).map Except.ok) = (l.length, l) := by
  intro fuel
  induction fuel with
  | zero =>
    intro l hl
    have : l = [] := List.eq_nil_of_length_eq_zero (Nat.le_zero.mp hl)
    subst this
    rfl
  | succ fuel ih =>
    intro l hl
    cases l with
    | nil => rfl
    | cons x xs =>
      rw [show chunksOfAux k (fuel + 1) (x :: xs) =
          (x :: xs).take k :: chunksOfAux k fuel ((x :: xs).drop k) from rfl,
        List.map_cons, DepotHandle.readLoop]
      have htake : ((x :: xs).take k).length = min k (x :: xs).length := by
        simp
      have hne : ((x :: xs).take k).length ≠ 0 := by
        rw [htake]
        simp only [List.length_cons]
        omega
      rw [if_neg hne]
      have hdrop : ((x :: xs).drop k).length ≤ fuel := by
        simp only [List.length_drop, List.length_cons] at *
        omega
      rw [ih _ hdrop]
      simp only [htake, List.length_drop, Prod.mk.injEq]
      exact ⟨by omega, List.take_append_drop k (x :: xs)⟩

theorem readLoop_ofBytes (k : Nat) (b : List Nat) (hk : 0 < k) :
    DepotHandle.readLoop (Reader.ofBytes k b).results = (b.length, b) := by
  rw [Reader.ofBytes, chunksOf, if_neg (Nat.pos_iff_ne_zero.mp hk)]
  exact readLoop_chunksAux k hk b.length b le_rfl

/-- The extract copy loop never moves the writer more than the remaining
byte budget, whatever the decompressor yields. -/
theorem extractLoop_pos_le (size : Nat) :
    ∀ (res : List ReadRes) (read : Nat) (w : Handle) (hs : List (List Nat)),
      (DepotHandle.extractLoop size res read w hs).2.1.pos ≤ w.pos + (size - read) := by
  intro res
  induction res with
  | nil =>
    intro read w hs
    simp [DepotHandle.extractLoop]
  | cons r rest ih =>
    intro read w hs
    cases r with
    | error e => simp [DepotHandle.extractLoop]
    | ok c =>
      rw [DepotHandle.extractLoop]
      by_cases h1 : size < read + c.length
      · rw [if_pos h1]
        simp only [Handle.write_pos, List.length_take]
        omega
      · rw [if_neg h1]
        by_cases h2 : c.length = 0
        · rw [if_pos h2]
          simp
        · rw [if_neg h2]
          have := ih (read + c.length) (w.write c) (hs ++ [c])
          rw [Handle.write_pos] at this
          omega

/-- On an error-free chunk stream of nonempty chunks whose total fits the
budget, the extract loop writes and hashes exactly the concatenation. -/
theorem extractLoop_exact (size : Nat) :
    ∀ (cs : List (List Nat)) (read : Nat) (w : Handle) (hs : List (List Nat)),
      (∀ c ∈ cs, c ≠ []) → read + cs.flatten.length ≤ size →
      w.pos = w.data.length →
      DepotHandle.extractLoop size (cs.map Except.ok) read w hs =
        (read + cs.flatten.length,
          ⟨w.data ++ cs.flatten, w.pos + cs.flatten.length⟩, hs ++ cs) := by
  intro cs
  induction cs with
  | nil =>
    intro read w hs _ _ _
    simp [DepotHandle.extractLoop]
  | cons c cs' ih =>
    intro read w hs hne hle hw
    have hcne : c ≠ [] := hne c (List.mem_cons_self _ _)
    have hclen : c.length ≠ 0 := by
      intro hc
      exact hcne (List.eq_nil_of_length_eq_zero hc)
    rw [List.map_cons, DepotHandle.extractLoop]
    rw [List.flatten_cons, List.length_append] at hle
    rw [if_neg (by omega), if_neg hclen]
    rw [Handle.write_at_end w c hw]
    rw [ih (read + c.length) ⟨w.data ++ c, w.pos + c.length⟩ (hs ++ [c])
      (fun d hd => hne d (List.mem_cons_of_mem _ hd)) (by omega)
      (by simp [hw])]
    simp only [List.flatten_cons, List.length_append, List.append_assoc,
      Prod.mk.injEq, Handle.mk.injEq]
    refine ⟨by omega, ⟨by simp, by omega⟩, by simp⟩

theorem parseTocEntries_append (l : List (Name × EntryInfo)) :
    ∀ (m : List (Name × EntryInfo)) (r : List Nat),
      (∀ p ∈ l, p.1.length < 2 ^ 32) →
      parseTocEntries l.length (serEntries l ++ r) m =
        .ok (insertAll m (roundEntries l), r) := by
  induction l with
  | nil =>
    intro m r _
    simp [serEntries, roundEntries, parseTocEntries, insertAll_nil]
  | cons p l' ih =>
    intro m r hn
    have hsplit : serEntries (p :: l') ++ r =
        lpstrBytes p.1 ++ (EntryInfo.bytes p.2 ++ (serEntries l' ++ r)) := by
      simp [serEntries, List.append_assoc]
    rw [List.length_cons, hsplit, parseTocEntries,
      parseLpstr_append _ _ (hn p (List.mem_cons_self _ _)), bind_ok_eq]
    simp only []
    rw [parseEntryInfo_append, bind_ok_eq]
    simp only []
    rw [ih (insertEntry p.1 (roundE p.2) m) r
      (fun q hq => hn q (List.mem_cons_of_mem _ hq))]
    rfl

theorem i32bits_lt (i : Int) : i32bits i < 2 ^ 32 := by
  rw [i32bits]
  have h1 : (0 : Int) < 2 ^ 32 := by norm_num
  have h2 := Int.emod_lt_of_pos i h1
  omega

theorem parseToc_append (t : DepotToc) (r : List Nat)
    (hlev : i32bits t.compression_level < 2 ^ 31)
    (hcount : t.entry_count = t.entries.length)
    (hcount2 : t.entry_count < 2 ^ 64)
    (hn : ∀ p ∈ t.entries, p.1.length < 2 ^ 32) :
    parseToc (DepotToc.bytes t ++ r) =
      .ok ({ compression_level := (i32bits t.compression_level : Int)
             entry_count := t.entry_count
             size := t.size % 2 ^ 64
             entries := insertAll [] (roundEntries t.entries) }, r) := by
  have hlev32 : i32bits t.compression_level % 2 ^ 32 = i32bits t.compression_level :=
    Nat.mod_eq_of_lt (i32bits_lt _)
  have hcnt : t.entry_count % 2 ^ 64 = t.entry_count := Nat.mod_eq_of_lt hcount2
  rw [DepotToc.bytes]
  rw [List.append_assoc, List.append_assoc, List.append_assoc]
  rw [parseToc, parseU32_append, hlev32, bind_ok_eq]
  simp only []
  rw [if_pos hlev]
  rw [parseU64_append, hcnt, bind_ok_eq]
  simp only []
  rw [parseU64_append, bind_ok_eq]
  simp only []
  rw [hcount,
    show ((t.entries.map (fun p => lpstrBytes p.1 ++ EntryInfo.bytes p.2)).flatten
      : List Nat) = serEntries t.entries from rfl,
    parseTocEntries_append t.entries [] r hn, bind_ok_eq]

theorem add_stream_toc (codec : Codec) (hashFn : List Nat → Nat)
    (d : DepotHandle) (n : Name) (rdr : Reader) (sz : Nat) (now : TsWithTz)
    (d' : DepotHandle)
    (h : DepotHandle.add_named_sized_stream codec hashFn d n rdr sz now = .ok d') :
    ∃ e : EntryInfo, e.flags = 0 ∧ e.size = sz ∧
      d'.metadata.toc.entries = insertEntry n e d.metadata.toc.entries ∧
      d'.metadata.toc.entry_count = d.metadata.toc.entry_count + 1 ∧
      d'.metadata.toc.size = d.metadata.toc.size + sz := by
  rw [DepotHandle.add_named_sized_stream] at h
  simp only [Except.ok.injEq] at h
  refine ⟨{ offset := d.handle.pos, size := sz,
            stream_size := (DepotHandle.readLoop rdr.results).1, flags := 0,
            create_ts := now, mod_ts := now, hash := oneShotHash hashFn rdr },
    rfl, rfl, ?_, ?_, ?_⟩ <;> rw [← h]

/-- A successful `add_file` updates the TOC by inserting one fresh entry:
an empty entry (flags 1, size 0, no `size` bump) on the zero branch, a
stream entry otherwise. -/
theorem add_file_toc (codec : Codec) (hashFn : List Nat → Nat)
    (d : DepotHandle) (p : Name) (f : DepotHandle.FsFile) (now : TsWithTz)
    (d' : DepotHandle)
    (h : DepotHandle.add_file codec hashFn d p f now = .ok d') :
    ∃ (e : EntryInfo) (bump : Nat), entryWeight e = bump ∧
      d'.metadata.toc.entries = insertEntry p e d.metadata.toc.entries ∧
      d'.metadata.toc.entry_count = d.metadata.toc.entry_count + 1 ∧
      d'.metadata.toc.size = d.metadata.toc.size + bump := by
  rw [DepotHandle.add_file] at h
  by_cases h1 : d.mode = OpenMode.Read
  · rw [if_pos h1] at h
    exact absurd h (by simp)
  rw [if_neg h1] at h
  by_cases h2 : f.isDir
  · rw [if_pos h2] at h
    exact absurd h (by simp)
  rw [if_neg h2] at h
  by_cases h3 : !f.fileExists
  · rw [if_pos h3] at h
    exact absurd h (by simp)
  rw [if_neg h3] at h
  by_cases h4 : !f.isFile
  · rw [if_pos h4] at h
    exact absurd h (by simp)
  rw [if_neg h4] at h
  by_cases h5 : f.content.length = 0
  · rw [if_pos h5] at h
    simp only [Except.ok.injEq] at h
    refine ⟨{ offset := d.handle.pos, size := 0, stream_size := 0, flags := 1,
              create_ts := now, mod_ts := now, hash := 2 ^ 64 - 1 }, 0,
      ?_, ?_, ?_, ?_⟩
    · rw [entryWeight]
      norm_num
    · rw [← h]
    · rw [← h]
    · rw [← h]
      simp
  · rw [if_neg h5] at h
    obtain ⟨e, hf, hs, he, hc, hsz⟩ :=
      add_stream_toc codec hashFn d p _ _ now d' h
    refine ⟨e, f.content.length, ?_, he, hc, hsz⟩
    rw [entryWeight, hf]
    simp [hs]

theorem op_run_toc (codec : Codec) (hashFn : List Nat → Nat)
    (d d' : DepotHandle) (op : AppendOp)
    (h : op.run codec hashFn d = .ok d') :
    ∃ (e : EntryInfo) (bump : Nat), entryWeight e = bump ∧
      d'.metadata.toc.entries = insertEntry op.name e d.metadata.toc.entries ∧
      d'.metadata.toc.entry_count = d.metadata.toc.entry_count + 1 ∧
      d'.metadata.toc.size = d.metadata.toc.size + bump := by
  cases op with
  | stream n rdr sz now =>
    obtain ⟨e, hf, hs, he, hc, hsz⟩ :=
      add_stream_toc codec hashFn d n rdr sz now d' h
    refine ⟨e, sz, ?_, he, hc, hsz⟩
    rw [entryWeight, hf]
    simp [hs]
  | file p f now => exact add_file_toc codec hashFn d p f now d' h

/-- One fresh-keyed successful append preserves I6. -/
theorem op_run_I6 (codec : Codec) (hashFn : List Nat → Nat)
    (d d' : DepotHandle) (op : AppendOp)
    (h : op.run codec hashFn d = .ok d')
    (hfresh : op.name ∉ keysOf d.metadata.toc.entries)
    (hI6 : I6 d.metadata.toc) : I6 d'.metadata.toc := by
  obtain ⟨e, bump, hw, he, hc, hsz⟩ := op_run_toc codec hashFn d d' op h
  constructor
  · rw [hc, he, length_insert_not_mem _ _ _ hfresh, hI6.1]
  · rw [hsz, he, sumSizes_insert_not_mem _ _ _ hfresh, hI6.2, hw]

theorem nodup_keys_insert {k : Name} {v : EntryInfo}
    {m : List (Name × EntryInfo)} (hfresh : k ∉ keysOf m)
    (hnd : (keysOf m).Nodup) : (keysOf (insertEntry k v m)).Nodup := by
  induction m with
  | nil => simp [insertEntry, keysOf]
  | cons p rest ih =>
    obtain ⟨k0, v0⟩ := p
    simp only [keysOf, List.map_cons, List.mem_cons, not_or] at hfresh
    rw [keysOf, List.map_cons, List.nodup_cons] at hnd
    rw [insertEntry]
    by_cases h1 : byteLt k k0 = true
    · rw [if_pos h1]
      rw [keysOf, List.map_cons, List.map_cons, List.nodup_cons, List.nodup_cons]
      refine ⟨?_, hnd.1, hnd.2⟩
      simp only [List.mem_cons, not_or]
      exact ⟨hfresh.1, hfresh.2⟩
    · rw [if_neg (by simpa using h1), if_neg hfresh.1]
      rw [keysOf, List.map_cons, List.nodup_cons]
      refine ⟨?_, ih hfresh.2 hnd.2⟩
      intro hmem
      rcases (mem_keys_insert _ _ _ _).mp hmem with hmem | hmem
      · exact hfresh.1 hmem.symm
      · exact hnd.1 hmem

/-- A sequence of successful appends with globally fresh, pairwise
distinct names preserves I6. -/
theorem applyOps_I6 (codec : Codec) (hashFn : List Nat → Nat) :
    ∀ (ops : List AppendOp) (d d' : DepotHandle),
      I6 d.metadata.toc →
      (keysOf d.metadata.toc.entries ++ ops.map AppendOp.name).Nodup →
      applyOps codec hashFn d ops = .ok d' →
      I6 d'.metadata.toc := by
  intro ops
  induction ops with
  | nil =>
    intro d d' hI6 _ h
    rw [applyOps] at h
    simp only [Except.ok.injEq] at h
    rw [← h]
    exact hI6
  | cons op rest ih =>
    intro d d' hI6 hnd happ
    rw [applyOps] at happ
    cases hrun : op.run codec hashFn d with
    | error e =>
      rw [hrun] at happ
      exact absurd happ (by simp [Bind.bind, Except.bind])
    | ok d1 =>
      rw [hrun, bind_ok_eq] at happ
      rw [List.nodup_append] at hnd
      obtain ⟨hndK, hndR, hdisj⟩ := hnd
      rw [List.map_cons, List.nodup_cons] at hndR
      have hfresh : op.name ∉ keysOf d.metadata.toc.entries := by
        intro hc
        exact hdisj hc (List.mem_cons_self _ _)
      have hI6' := op_run_I6 codec hashFn d d1 op hrun hfresh hI6
      obtain ⟨e, bump, hw, he, hc, hs⟩ := op_run_toc codec hashFn d d1 op hrun
      refine ih d1 d' hI6' ?_ happ
      rw [List.nodup_append]
      refine ⟨?_, hndR.2, ?_⟩
      · rw [he]
        exact nodup_keys_insert hfresh hndK
      · intro a ha hmem
        rw [he] at ha
        rcases (mem_keys_insert _ _ _ _).mp ha with ha | ha
        · exact hndR.1 (ha ▸ hmem)
        · exact hdisj ha (List.mem_cons_of_mem _ hmem)

theorem sortedMap_insertAll :
    ∀ (l m : List (Name × EntryInfo)), SortedMap m → SortedMap (insertAll m l)
  | [], _, h => h
  | p :: l', m, h =>
    insertAll_cons m p l' ▸ sortedMap_insertAll l' _ (sortedMap_insert h)

theorem mem_insertAll {p : Name × EntryInfo} :
    ∀ {l m : List (Name × EntryInfo)}, p ∈ insertAll m l → p ∈ m ∨ p ∈ l := by
  intro l
  induction l with
  | nil =>
    intro m h
    exact Or.inl h
  | cons q l' ih =>
    intro m h
    rw [insertAll_cons] at h
    rcases ih h with h' | h'
    · rcases mem_insert h' with h'' | h''
      · exact Or.inr (h'' ▸ List.mem_cons_self _ _)
      · exact Or.inl h''
    · exact Or.inr (List.mem_cons_of_mem _ h')

theorem length_insertAll :
    ∀ (l m : List (Name × EntryInfo)), (keysOf l).Nodup →
      (∀ a ∈ keysOf l, a ∉ keysOf m) →
      (insertAll m l).length = m.length + l.length := by
  intro l
  induction l with
  | nil =>
    intro m _ _
    rfl
  | cons p l' ih =>
    intro m hnd hdisj
    rw [keysOf, List.map_cons, List.nodup_cons] at hnd
    rw [insertAll_cons, ih (insertEntry p.1 p.2 m)
      hnd.2 ?_, length_insert_not_mem p.1 p.2 m
      (hdisj p.1 (List.mem_cons_self _ _))]
    · simp only [List.length_cons]
      omega
    · intro a ha hmem
      rcases (mem_keys_insert _ _ _ _).mp hmem with h | h
      · exact hnd.1 (h ▸ ha)
      · exact hdisj a (List.mem_cons_of_mem _ ha) h

theorem lookup_roundEntries (k : Name) :
    ∀ m : List (Name × EntryInfo),
      lookupEntry k (roundEntries m) = (lookupEntry k m).map roundE := by
  intro m
  induction m with
  | nil => rfl
  | cons p rest ih =>
    rw [roundEntries, List.map_cons, lookupEntry, lookupEntry]
    by_cases h : k = p.1
    · rw [if_pos h, if_pos h]
      rfl
    · rw [if_neg h, if_neg h]
      exact ih

theorem keysOf_roundEntries (m : List (Name × EntryInfo)) :
    keysOf (roundEntries m) = keysOf m := by
  simp [keysOf, roundEntries]

theorem sortedMap_roundEntries {m : List (Name × EntryInfo)}
    (h : SortedMap m) : SortedMap (roundEntries m) := by
  rw [SortedMap, roundEntries, List.pairwise_map]
  exact h

theorem specEntries_keys (codec : Codec) (hashFn : List Nat → Nat)
    (now : TsWithTz) :
    ∀ (pairs : List (Name × List Nat)) (pos : Nat),
      keysOf (specEntries codec hashFn now pos pairs) = pairs.map Prod.fst := by
  intro pairs
  induction pairs with
  | nil =>
    intro pos
    rfl
  | cons nb rest ih =>
    intro pos
    obtain ⟨n, b⟩ := nb
    rw [specEntries, keysOf, List.map_cons, List.map_cons]
    rw [show (List.map Prod.fst (specEntries codec hashFn now
      (pos + (codec.compress 0 b).length) rest) : List Name) =
      keysOf (specEntries codec hashFn now
        (pos + (codec.compress 0 b).length) rest) from rfl, ih]

theorem specEntries_mem (codec : Codec) (hashFn : List Nat → Nat)
    (now : TsWithTz) :
    ∀ (pairs : List (Name × List Nat)) (pos : Nat) (n : Name) (b : List Nat),
      (n, b) ∈ pairs →
      ∃ k rest, k + (codec.compress 0 b).length ≤ (framesOf codec pairs).length ∧
        (framesOf codec pairs).drop k = codec.compress 0 b ++ rest ∧
        (n, { offset := pos + k, size := b.length, stream_size := b.length,
              flags := 0, create_ts := now, mod_ts := now, hash := hashFn b })
          ∈ specEntries codec hashFn now pos pairs := by
  intro pairs
  induction pairs with
  | nil =>
    intro pos n b h
    simp at h
  | cons nb rest ih =>
    intro pos n b h
    obtain ⟨n0, b0⟩ := nb
    have hframes : framesOf codec ((n0, b0) :: rest) =
        codec.compress 0 b0 ++ framesOf codec rest := by
      simp [framesOf]
    rcases List.mem_cons.mp h with h | h
    · obtain ⟨hn, hb⟩ := Prod.mk.injEq _ _ _ _ ▸ h
      subst hn
      subst hb
      refine ⟨0, framesOf codec rest, ?_, ?_, ?_⟩
      · rw [hframes, List.length_append]
        omega
      · rw [hframes, List.drop_zero]
      · rw [specEntries]
        simp
    · obtain ⟨k, r, hk, hdrop, hmem⟩ :=
        ih (pos + (codec.compress 0 b0).length) n b h
      refine ⟨(codec.compress 0 b0).length + k, r, ?_, ?_, ?_⟩
      · rw [hframes, List.length_append]
        omega
      · rw [hframes]
        rw [List.drop_append_eq_append_drop]
        have hge : (codec.compress 0 b0).length + k ≥ (codec.compress 0 b0).length := by
          omega
        rw [List.drop_eq_nil_of_le (by omega), List.nil_append]
        have : (codec.compress 0 b0).length + k - (codec.compress 0 b0).length = k := by
          omega
        rw [this, hdrop]
      · rw [specEntries]
        refine List.mem_cons_of_mem _ ?_
        rw [show pos + ((codec.compress 0 b0).length + k) =
          pos + (codec.compress 0 b0).length + k from by omega]
        exact hmem

theorem add_stream_ofBytes (codec : Codec) (hashFn : List Nat → Nat)
    (d : DepotHandle) (n : Name) (b : List Nat) (now : TsWithTz)
    (hlev : d.metadata.toc.compression_level = 0) :
    DepotHandle.add_named_sized_stream codec hashFn d n
      (Reader.ofBytes 8192 b) b.length now =
      .ok (addedState codec hashFn d n b now) := by
  rw [DepotHandle.add_named_sized_stream,
    readLoop_ofBytes 8192 b (by norm_num), hlev]
  rfl

/-- Invariant of the append phase: frames accumulate at the end of the
handle, entries accumulate by insertion, the header is untouched. -/
theorem appendAll_ok (codec : Codec) (hashFn : List Nat → Nat) (now : TsWithTz) :
    ∀ (pairs : List (Name × List Nat)) (d : DepotHandle),
      d.handle.pos = d.handle.data.length →
      d.metadata.toc.compression_level = 0 →
      ∃ d', appendAll codec hashFn now d pairs = .ok d' ∧
        d'.handle.data = d.handle.data ++ framesOf codec pairs ∧
        d'.handle.pos = d'.handle.data.length ∧
        d'.metadata.toc.compression_level = 0 ∧
        d'.metadata.toc.entry_count = d.metadata.toc.entry_count + pairs.length ∧
        d'.metadata.toc.entries = insertAll d.metadata.toc.entries
          (specEntries codec hashFn now d.handle.pos pairs) ∧
        d'.metadata.header = d.metadata.header ∧
        d'.header_offset = d.header_offset ∧
        d'.mode = d.mode := by
  intro pairs
  induction pairs with
  | nil =>
    intro d hpos hlev
    refine ⟨d, rfl, by simp [framesOf], hpos, hlev, by simp, ?_, rfl, rfl, rfl⟩
    rw [specEntries, insertAll_nil]
  | cons nb rest ih =>
    intro d hpos hlev
    obtain ⟨n, b⟩ := nb
    have hD1pos : (addedState codec hashFn d n b now).handle.pos =
        (addedState codec hashFn d n b now).handle.data.length := by
      rw [addedState, Handle.write_at_end _ _ hpos]
      simp [hpos]
    have hD1lev : (addedState codec hashFn d n b now).metadata.toc.compression_level = 0 := by
      rw [addedState]
      exact hlev
    obtain ⟨d', happ, hdata, hpos', hlev', hcount', hentries', hheader', hho', hmode'⟩ :=
      ih (addedState codec hashFn d n b now) hD1pos hD1lev
    refine ⟨d', ?_, ?_, hpos', hlev', ?_, ?_, ?_, ?_, ?_⟩
    · rw [appendAll, add_stream_ofBytes codec hashFn d n b now hlev, bind_ok_eq]
      exact happ
    · rw [hdata, addedState, Handle.write_at_end _ _ hpos]
      simp only []
      rw [List.append_assoc]
      rw [show (codec.compress 0 b ++ framesOf codec rest : List Nat) =
        framesOf codec ((n, b) :: rest) from by simp [framesOf]]
    · rw [hcount', addedState]
      simp only [List.length_cons]
      omega
    · rw [hentries', specEntries, insertAll_cons]
      rw [show (addedState codec hashFn d n b now).metadata.toc.entries =
        insertEntry n
          { offset := d.handle.pos, size := b.length, stream_size := b.length,
            flags := 0, create_ts := now, mod_ts := now, hash := hashFn b }
          d.metadata.toc.entries from rfl]
      rw [show (addedState codec hashFn d n b now).handle.pos =
        d.handle.pos + (codec.compress 0 b).length from rfl]
    · rw [hheader', addedState]
    · rw [hho', addedState]
    · rw [hmode', addedState]

theorem create_empty :
    DepotHandle.create ⟨[], 0⟩ =
      { metadata := { header := ⟨1, 2 ^ 64 - 1⟩, toc := DepotToc.default }
        mode := .ReadWrite, header_offset := 0, mt_threads := 1
        compression_frame_size := 8192
        handle := ⟨DepotHeader.bytes ⟨1, 2 ^ 64 - 1⟩, 18⟩ } := by
  rw [DepotHandle.create]
  simp [Handle.write, length_headerBytes]

/-- What `finalize` leaves on disk when the cursor sits at end-of-data:
the TOC appended at the old end, and the header — rewritten at absolute
offset 0 — carrying that offset. -/
theorem finalize_shape (d : DepotHandle) :
    (DepotHandle.finalize d).handle.data =
      DepotHeader.bytes { d.metadata.header with toc_offset := d.handle.data.length } ++
        (d.handle.data ++ d.metadata.toc.bytes).drop 18 ∧
    (DepotHandle.finalize d).metadata.toc = d.metadata.toc := by
  rw [DepotHandle.finalize]
  have h1 : d.handle.seekEnd = ⟨d.handle.data, d.handle.data.length⟩ := by
    rw [Handle.seekEnd]
  rw [h1]
  have h2 : (⟨d.handle.data, d.handle.data.length⟩ : Handle).write d.metadata.toc.bytes =
      ⟨d.handle.data ++ d.metadata.toc.bytes, d.handle.data.length + d.metadata.toc.bytes.length⟩ :=
    Handle.write_at_end _ _ rfl
  rw [h2]
  refine ⟨?_, rfl⟩
  rw [Handle.seekStart, Handle.write]
  simp [length_headerBytes]

theorem deHeader_at_zero (hb rest : List Nat) (v off : Nat)
    (hph : parseHeader (hb ++ rest) = .ok (⟨v, off⟩, rest)) :
    DepotHandle.deHeader ⟨hb ++ rest, 0⟩ =
      .ok (⟨v, off⟩, ⟨hb ++ rest, (hb ++ rest).length - rest.length⟩) := by
  rw [DepotHandle.deHeader]
  simp only [List.drop_zero]
  rw [hph]

theorem deToc_at (s tb : List Nat) (off : Nat) (t' : DepotToc)
    (hdrop : s.drop off = tb) (hpt : parseToc tb = .ok (t', [])) :
    DepotHandle.deToc ⟨s, off⟩ =
      .ok (t', ⟨s, s.length - ([] : List Nat).length⟩) := by
  rw [DepotHandle.deToc]
  simp only []
  rw [hdrop, hpt]

theorem new_of_parses (file : List Nat) (mode : OpenMode) (v off : Nat)
    (p1 p2 : Nat) (t' : DepotToc)
    (hdh : DepotHandle.deHeader ⟨file, 0⟩ = .ok (⟨v, off⟩, ⟨file, p1⟩))
    (hdt : DepotHandle.deToc ⟨file, off⟩ = .ok (t', ⟨file, p2⟩)) :
    DepotHandle.new ⟨file, 0⟩ mode = .ok
      { metadata := { header := ⟨v, off⟩, toc := t' }
        mode := mode, header_offset := 0, mt_threads := 1
        compression_frame_size := 8192, handle := ⟨file, p2⟩ } := by
  rw [DepotHandle.new, hdh, bind_ok_eq]
  simp only [Handle.seekStart]
  rw [hdt, bind_ok_eq]

/-- Reopening a well-formed depot file parses the header and rebuilds the
TOC from its serialized, sorted entry records. -/
theorem new_reopened (hh : DepotHeader) (frames : List Nat) (t : DepotToc)
    (mode : OpenMode)
    (hoff : hh.toc_offset = 18 + frames.length)
    (hoff64 : hh.toc_offset < 2 ^ 64)
    (hver : hh.version < 2 ^ 16)
    (hlev : i32bits t.compression_level < 2 ^ 31)
    (hcount : t.entry_count = t.entries.length)
    (hcount2 : t.entry_count < 2 ^ 64)
    (hn : ∀ p ∈ t.entries, p.1.length < 2 ^ 32) :
    ∃ d, DepotHandle.new ⟨hh.bytes ++ (frames ++ t.bytes), 0⟩ mode = .ok d ∧
      d.handle.data = hh.bytes ++ (frames ++ t.bytes) ∧
      d.metadata.toc.entry_count = t.entry_count ∧
      d.metadata.toc.entries = insertAll [] (roundEntries t.entries) ∧
      d.metadata.header.version = hh.version ∧
      d.metadata.header.toc_offset = hh.toc_offset ∧
      d.mode = mode := by
  have hph := parseHeader_append hh (frames ++ t.bytes)
  rw [Nat.mod_eq_of_lt hver, Nat.mod_eq_of_lt hoff64] at hph
  have hpt := parseToc_append t [] hlev hcount hcount2 hn
  rw [List.append_nil] at hpt
  have hdh := deHeader_at_zero hh.bytes (frames ++ t.bytes) hh.version
    hh.toc_offset hph
  have hdropToc : (hh.bytes ++ (frames ++ t.bytes)).drop hh.toc_offset = t.bytes := by
    rw [← List.append_assoc]
    have hlen : (hh.bytes ++ frames).length = hh.toc_offset := by
      rw [List.length_append, length_headerBytes, hoff]
    rw [← hlen, List.drop_left]
  have hdt := deToc_at (hh.bytes ++ (frames ++ t.bytes)) t.bytes hh.toc_offset
    _ hdropToc hpt
  have hnew := new_of_parses (hh.bytes ++ (frames ++ t.bytes)) mode hh.version
    hh.toc_offset _ _ _ hdh hdt
  exact ⟨_, hnew, rfl, rfl, rfl, rfl, rfl, rfl⟩

theorem get_named_some (d : DepotHandle) (n : Name) (e : EntryInfo)
    (h : lookupEntry n d.metadata.toc.entries = some e) :
    DepotHandle.get_named_stream d n = some ⟨n, e⟩ := by
  rw [DepotHandle.get_named_stream, h]

/-- A successful extraction: correct flags, a decompressor that yields the
payload in nonempty chunks, and matching size and hash give back exactly
the payload in a fresh writer. -/
theorem extract_stream_ok (codec : Codec) (hashFn : List Nat → Nat)
    (d : DepotHandle) (si : StreamInfo) (b : List Nat) (cs : List (List Nat))
    (hflags : si.einf.flags = 0)
    (hsize : si.einf.size = b.length)
    (hhash : si.einf.hash = hashFn b)
    (hdec : codec.decompress (d.handle.data.drop si.einf.offset) = cs.map Except.ok)
    (hflat : cs.flatten = b)
    (hne : ∀ c ∈ cs, c ≠ []) :
    DepotHandle.extract_stream codec hashFn d si ⟨[], 0⟩ =
      (.ok (), { d with handle := d.handle.seekStart si.einf.offset }, ⟨b, b.length⟩) := by
  rw [DepotHandle.extract_stream]
  rw [if_neg (by rw [hflags]; norm_num)]
  simp only [Handle.seekStart]
  rw [hdec]
  have hloop := extractLoop_exact si.einf.size cs 0 (⟨[], 0⟩ : Handle) [] hne
    (by rw [hflat, hsize]; omega) rfl
  rw [hloop]
  simp only [List.nil_append, Nat.zero_add]
  rw [if_neg (by rw [hflat, hsize]; simp)]
  rw [if_neg (by rw [hflat, hhash]; simp)]
  rw [hflat]

/-- Composition of reopen, lookup and extract. -/
theorem reopenExtract_ok (codec : Codec) (hashFn : List Nat → Nat)
    (file : List Nat) (n : Name) (b : List Nat) (d d1 : DepotHandle)
    (si : StreamInfo) (p : Nat)
    (hnew : DepotHandle.new ⟨file, 0⟩ .Read = .ok d)
    (hget : DepotHandle.get_named_stream d n = some si)
    (hext : DepotHandle.extract_stream codec hashFn d si ⟨[], 0⟩ = (.ok (), d1, ⟨b, p⟩)) :
    reopenExtract codec hashFn file n = .ok b := by
  rw [reopenExtract, hnew]
  simp only []
  rw [hget]
  simp only []
  rw [hext]

/-- The bytes `create` + appends + `finalize` leave on an initially empty
handle: a header pointing at the TOC, the frames, the serialized TOC. -/
theorem buildFile_shape (codec : Codec) (hashFn : List Nat → Nat)
    (now : TsWithTz) (pairs : List (Name × List Nat)) :
    ∃ t' : DepotToc,
      t'.compression_level = 0 ∧
      t'.entry_count = pairs.length ∧
      t'.entries = insertAll [] (specEntries codec hashFn now 18 pairs) ∧
      buildFile codec hashFn now pairs =
        DepotHeader.bytes ⟨1, 18 + (framesOf codec pairs).length⟩ ++
          (framesOf codec pairs ++ t'.bytes) := by
  have hc1 : (DepotHandle.create ⟨[], 0⟩).handle.pos = 18 := by rw [create_empty]
  have hc2 : (DepotHandle.create ⟨[], 0⟩).handle.data =
      DepotHeader.bytes ⟨1, 2 ^ 64 - 1⟩ := by rw [create_empty]
  have hc3 : (DepotHandle.create ⟨[], 0⟩).metadata.toc.compression_level = 0 := by
    rw [create_empty]
    rfl
  have hc4 : (DepotHandle.create ⟨[], 0⟩).metadata.toc.entries = [] := by
    rw [create_empty]
    rfl
  have hc5 : (DepotHandle.create ⟨[], 0⟩).metadata.toc.entry_count = 0 := by
    rw [create_empty]
    rfl
  have hc6 : (DepotHandle.create ⟨[], 0⟩).metadata.header = ⟨1, 2 ^ 64 - 1⟩ := by
    rw [create_empty]
  obtain ⟨d', happ, hdata, hpos, hlev, hcount, hentries, hheader, hho, hmode⟩ :=
    appendAll_ok codec hashFn now pairs (DepotHandle.create ⟨[], 0⟩)
      (by rw [hc1, hc2, length_headerBytes]) hc3
  refine ⟨d'.metadata.toc, hlev, ?_, ?_, ?_⟩
  · rw [hcount, hc5, Nat.zero_add]
  · rw [hentries, hc4, hc1]
  · rw [buildFile, happ]
    simp only []
    obtain ⟨hfin, _⟩ := finalize_shape d'
    rw [hfin, hheader, hc6]
    have hL : d'.handle.data.length = 18 + (framesOf codec pairs).length := by
      rw [hdata, hc2, List.length_append, length_headerBytes]
    rw [hL]
    have hdrop : (d'.handle.data ++ d'.metadata.toc.bytes).drop 18 =
        framesOf codec pairs ++ d'.metadata.toc.bytes := by
      rw [hdata, hc2, List.append_assoc, ← length_headerBytes (⟨1, 2 ^ 64 - 1⟩ : DepotHeader),
        List.drop_left]
    rw [hdrop]

/-- C7: for any finite sequence of `(name, bytes)` pairs with unique names
(and in-range lengths), creating a depot, appending each pair via
`add_named_sized_stream`, finalizing, reopening the resulting bytes, and
extracting each name via `extract_stream` succeeds and yields exactly the
original bytes for that name.  The codec is any self-delimiting
compressor whose decoder replays the frame's payload in nonempty chunks;
the hash is any 64-bit hash. -/
theorem C7_round_trip (codec : Codec) (hashFn : List Nat → Nat)
    (now : TsWithTz) (pairs : List (Name × List Nat))
    (Hh : ∀ b, hashFn b < 2 ^ 64)
    (Hdec : ∀ nb ∈ pairs, ∀ rest : List Nat, ∃ cs : List (List Nat),
      codec.decompress (codec.compress 0 nb.2 ++ rest) = cs.map Except.ok ∧
      cs.flatten = nb.2 ∧ ∀ c ∈ cs, c ≠ [])
    (Hnodup : (pairs.map Prod.fst).Nodup)
    (Hname : ∀ nb ∈ pairs, nb.1.length < 2 ^ 32)
    (Hsize : ∀ nb ∈ pairs, nb.2.length < 2 ^ 64)
    (Hcount : pairs.length < 2 ^ 64)
    (Hlen : 18 + (framesOf codec pairs).length < 2 ^ 64) :
    ∀ nb ∈ pairs, reopenExtract codec hashFn
      (buildFile codec hashFn now pairs) nb.1 = .ok nb.2 := by
  obtain ⟨t', hlev', hcount', hentries', hbuild⟩ := buildFile_shape codec hashFn now pairs
  have hkeysE : keysOf (specEntries codec hashFn now 18 pairs) = pairs.map Prod.fst :=
    specEntries_keys codec hashFn now pairs 18
  have hndE : (keysOf (specEntries codec hashFn now 18 pairs)).Nodup := by
    rw [hkeysE]
    exact Hnodup
  have hsorted : SortedMap t'.entries := by
    rw [hentries']
    exact sortedMap_insertAll _ [] List.Pairwise.nil
  have hlenE : (specEntries codec hashFn now 18 pairs).length = pairs.length := by
    have h := congrArg List.length hkeysE
    simpa [keysOf] using h
  have hlen_m : t'.entries.length = pairs.length := by
    rw [hentries', length_insertAll _ [] hndE (by intro a _ hc; simp [keysOf] at hc)]
    simpa using hlenE
  have hname_m : ∀ p ∈ t'.entries, p.1.length < 2 ^ 32 := by
    intro p hp
    rw [hentries'] at hp
    rcases mem_insertAll hp with h | h
    · simp at h
    · have hk : p.1 ∈ keysOf (specEntries codec hashFn now 18 pairs) :=
        List.mem_map_of_mem Prod.fst h
      rw [hkeysE] at hk
      obtain ⟨nb, hnb, hfst⟩ := List.mem_map.mp hk
      have hlt := Hname nb hnb
      rw [hfst] at hlt
      exact hlt
  obtain ⟨d, hnew, hddata, hdcount, hdentries, hdver, hdoff, hdmode⟩ :=
    new_reopened ⟨1, 18 + (framesOf codec pairs).length⟩ (framesOf codec pairs)
      t' .Read rfl Hlen (by norm_num)
      (by rw [hlev']; norm_num [i32bits])
      (by rw [hcount']; exact hlen_m.symm)
      (by rw [hcount']; exact Hcount) hname_m
  rw [← hbuild] at hnew hddata
  have hentries_d : d.metadata.toc.entries = roundEntries t'.entries := by
    rw [hdentries, insertAll_eq_append (roundEntries t'.entries) []
      (by rw [List.nil_append]; exact sortedMap_roundEntries hsorted),
      List.nil_append]
  intro nb hmem
  obtain ⟨n, b⟩ := nb
  obtain ⟨k, restk, hkle, hdropk, hmemE⟩ :=
    specEntries_mem codec hashFn now pairs 18 n b hmem
  have hlookup : lookupEntry n t'.entries =
      some ⟨18 + k, b.length, b.length, 0, now, now, hashFn b⟩ := by
    rw [hentries']
    exact lookup_insertAll_mem hndE hmemE
  have hlookup_d : lookupEntry n d.metadata.toc.entries =
      some (roundE ⟨18 + k, b.length, b.length, 0, now, now, hashFn b⟩) := by
    rw [hentries_d, lookup_roundEntries, hlookup]
    rfl
  have hget := get_named_some d n
    (roundE ⟨18 + k, b.length, b.length, 0, now, now, hashFn b⟩) hlookup_d
  have hkfr : k ≤ (framesOf codec pairs).length := le_trans (Nat.le_add_right _ _) hkle
  have hoff64 : 18 + k < 2 ^ 64 := by omega
  have hEoff : (roundE ⟨18 + k, b.length, b.length, 0, now, now, hashFn b⟩).offset
      = 18 + k := by
    simp only [roundE]
    exact Nat.mod_eq_of_lt hoff64
  have hEflags : (roundE ⟨18 + k, b.length, b.length, 0, now, now, hashFn b⟩).flags
      = 0 := by
    simp [roundE]
  have hEsize : (roundE ⟨18 + k, b.length, b.length, 0, now, now, hashFn b⟩).size
      = b.length := by
    simp only [roundE]
    exact Nat.mod_eq_of_lt (Hsize (n, b) hmem)
  have hEhash : (roundE ⟨18 + k, b.length, b.length, 0, now, now, hashFn b⟩).hash
      = hashFn b := by
    simp only [roundE]
    exact Nat.mod_eq_of_lt (Hh b)
  have hfile_drop : (buildFile codec hashFn now pairs).drop (18 + k) =
      codec.compress 0 b ++ (restk ++ t'.bytes) := by
    rw [hbuild, List.drop_append_eq_append_drop,
      List.drop_eq_nil_of_le (by rw [length_headerBytes]; omega),
      List.nil_append, length_headerBytes,
      show 18 + k - 18 = k from by omega,
      List.drop_append_eq_append_drop, hdropk,
      Nat.sub_eq_zero_of_le hkfr, List.drop_zero, List.append_assoc]
  obtain ⟨cs, hcs, hflat, hne⟩ := Hdec (n, b) hmem (restk ++ t'.bytes)
  have hdec_d : codec.decompress (d.handle.data.drop
      ((roundE ⟨18 + k, b.length, b.length, 0, now, now, hashFn b⟩).offset)) =
      cs.map Except.ok := by
    rw [hddata, hEoff, hfile_drop, hcs]
  have hext := extract_stream_ok codec hashFn d
    ⟨n, roundE ⟨18 + k, b.length, b.length, 0, now, now, hashFn b⟩⟩ b cs
    hEflags hEsize hEhash hdec_d hflat hne
  exact reopenExtract_ok codec hashFn _ n b d _ _ _ hnew hget hext

theorem bind_error_eq {ε α β : Type} (e : ε) (f : α → Except ε β) :
    ((Except.error e : Except ε α) >>= f) = .error e := rfl

theorem demoHash_lt : ∀ b, demoHash b < 2 ^ 64 := by
  intro b
  rw [demoHash]
  exact Nat.mod_lt _ (by norm_num)

/-- The stored codec round-trips any payload shorter than `2^64` bytes,
ignoring trailing data. -/
theorem storeCodec_dec (b : List Nat) (hb : b.length < 2 ^ 64) (rest : List Nat) :
    ∃ cs : List (List Nat),
      storeCodec.decompress (storeCodec.compress 0 b ++ rest) = cs.map Except.ok ∧
      cs.flatten = b ∧ ∀ c ∈ cs, c ≠ [] := by
  have hsplit : storeCodec.compress 0 b ++ rest = beBytes 8 b.length ++ (b ++ rest) := by
    rw [show storeCodec.compress 0 b = beBytes 8 b.length ++ b from rfl,
      List.append_assoc]
  have htake : (beBytes 8 b.length ++ (b ++ rest)).take 8 = beBytes 8 b.length :=
    List.take_left' (length_beBytes 8 b.length)
  have hdrop : (beBytes 8 b.length ++ (b ++ rest)).drop 8 = b ++ rest :=
    List.drop_left' (length_beBytes 8 b.length)
  have hval : beVal (beBytes 8 b.length) = b.length := by
    rw [beVal_beBytes]
    exact Nat.mod_eq_of_lt (by norm_num at hb ⊢; omega)
  have htakeb : (b ++ rest).take b.length = b := List.take_left b rest
  by_cases hbe : b = []
  · refine ⟨[], ?_, by simp [hbe], by simp⟩
    rw [show storeCodec.decompress (storeCodec.compress 0 b ++ rest) =
      (if (((storeCodec.compress 0 b ++ rest).drop 8).take
          (beVal ((storeCodec.compress 0 b ++ rest).take 8)) : List Nat) = []
        then ([] : List ReadRes)
        else [Except.ok (((storeCodec.compress 0 b ++ rest).drop 8).take
          (beVal ((storeCodec.compress 0 b ++ rest).take 8)))]) from rfl]
    rw [hsplit, htake, hdrop, hval, htakeb, if_pos hbe]
    rfl
  · refine ⟨[b], ?_, by simp, by simp [hbe]⟩
    rw [show storeCodec.decompress (storeCodec.compress 0 b ++ rest) =
      (if (((storeCodec.compress 0 b ++ rest).drop 8).take
          (beVal ((storeCodec.compress 0 b ++ rest).take 8)) : List Nat) = []
        then ([] : List ReadRes)
        else [Except.ok (((storeCodec.compress 0 b ++ rest).drop 8).take
          (beVal ((storeCodec.compress 0 b ++ rest).take 8)))]) from rfl]
    rw [hsplit, htake, hdrop, hval, htakeb, if_neg hbe]
    rfl

/-- The zero-size branch of `add_file`: the 56-byte `EntryInfo` record is
serialized into the handle at the current position and the empty entry is
inserted into the TOC. -/
theorem add_file_zero (codec : Codec) (hashFn : List Nat → Nat)
    (d : DepotHandle) (path : Name) (f : DepotHandle.FsFile) (now : TsWithTz)
    (hmode : d.mode ≠ .Read) (hdir : f.isDir = false)
    (hex : f.fileExists = true) (hreg : f.isFile = true)
    (hempty : f.content = []) :
    DepotHandle.add_file codec hashFn d path f now = .ok
      { d with
        handle := d.handle.write
          (EntryInfo.bytes ⟨d.handle.pos, 0, 0, 1, now, now, 2 ^ 64 - 1⟩)
        metadata := { d.metadata with toc := { d.metadata.toc with
          entry_count := d.metadata.toc.entry_count + 1
          entries := insertEntry path ⟨d.handle.pos, 0, 0, 1, now, now, 2 ^ 64 - 1⟩
            d.metadata.toc.entries } } } := by
  rw [DepotHandle.add_file, if_neg hmode, if_neg (by simp [hdir]),
    if_neg (by simp [hex]), if_neg (by simp [hreg]), hempty]
  rfl

/-- `extract_stream` on a non-empty-flagged entry, written without the
intermediate bindings, for case analysis on its two checks. -/
theorem extract_stream_eq (codec : Codec) (hashFn : List Nat → Nat)
    (d : DepotHandle) (si : StreamInfo) (w : Handle)
    (hf : ¬ si.einf.flags = 1) :
    DepotHandle.extract_stream codec hashFn d si w =
      (if (DepotHandle.extractLoop si.einf.size
            (codec.decompress (d.handle.data.drop si.einf.offset)) 0 w []).2.1.pos
          ≠ si.einf.size
        then (.error .invalidData,
          { d with handle := d.handle.seekStart si.einf.offset },
          (DepotHandle.extractLoop si.einf.size
            (codec.decompress (d.handle.data.drop si.einf.offset)) 0 w []).2.1)
        else if hashFn (DepotHandle.extractLoop si.einf.size
            (codec.decompress (d.handle.data.drop si.einf.offset)) 0 w []).2.2.flatten
          ≠ si.einf.hash
        then (.error .invalidData,
          { d with handle := d.handle.seekStart si.einf.offset },
          (DepotHandle.extractLoop si.einf.size
            (codec.decompress (d.handle.data.drop si.einf.offset)) 0 w []).2.1)
        else (.ok (),
          { d with handle := d.handle.seekStart si.einf.offset },
          (DepotHandle.extractLoop si.einf.size
            (codec.decompress (d.handle.data.drop si.einf.offset)) 0 w []).2.1)) := by
  rw [DepotHandle.extract_stream, if_neg hf]
  rfl

/-! ## The claims -/

/-- C1: the claim says `stream_size` records the compressed payload length
(`after - before` on the byte handle).  In the code `writen` counts the
bytes read from the source, so the recorded `stream_size` is the
uncompressed length: appending the 6-byte payload `hello\n` through a
codec whose frame is 14 bytes long records `stream_size = 6` while the
handle grew by 14 bytes. -/
theorem C1_stream_size_records_uncompressed :
    (DepotHandle.add_named_sized_stream storeCodec demoHash
        (DepotHandle.create ⟨[], 0⟩) [97]
        (Reader.ofBytes 8192 helloBytes) 6 ts0).toOption.map
      (fun d => ((lookupEntry [97] d.metadata.toc.entries).map
          (fun e => e.stream_size), d.handle.data.length)) = some (some 6, 32) ∧
    (storeCodec.compress 0 helloBytes).length = 14 ∧ 32 - 18 = 14 ∧ (6 : Nat) ≠ 14 := by
  refine ⟨by decide, by decide, by decide, by decide⟩

/-- C2: the claim says `finalize` seeks to `header_offset` before the
header rewrite.  The code seeks to absolute 0: on a depot created at
position 20 of a 20-byte file, finalize overwrites bytes 0..17 with the
updated header while the stale sentinel header remains at
`header_offset = 20`. -/
theorem C2_finalize_rewrites_at_absolute_zero :
    (DepotHandle.finalize (DepotHandle.create ⟨List.replicate 20 0, 20⟩)).header_offset
      = 20 ∧
    (DepotHandle.finalize (DepotHandle.create
      ⟨List.replicate 20 0, 20⟩)).handle.data.take 18 = DepotHeader.bytes ⟨1, 38⟩ ∧
    (List.replicate 20 0).take 18 ≠ DepotHeader.bytes ⟨1, 38⟩ ∧
    ((DepotHandle.finalize (DepotHandle.create
      ⟨List.replicate 20 0, 20⟩)).handle.data.drop 20).take 18 =
      DepotHeader.bytes ⟨1, 2 ^ 64 - 1⟩ ∧
    DepotHeader.bytes ⟨1, 2 ^ 64 - 1⟩ ≠ DepotHeader.bytes ⟨1, 38⟩ := by
  refine ⟨by decide, by decide, by decide, by decide, by decide⟩

/-- C3: the claim says `to_u64` yields `(seconds << 32) | (tz & 0xFFFFFFFF)`
and that the codec round-trips.  The code casts `tz as u64` without a
mask, sign-extending a negative offset over the seconds half: for
`ts = 1, tz = -1` the packed word is all-ones instead of
`0x00000001FFFFFFFF`, the encode/decode round trip fails, and the word
`0x80000000` does not survive decode-then-re-encode. -/
theorem C3_timestamp_pack_bug :
    TsWithTz.to_u64 ⟨1, -1⟩ = 0xFFFFFFFFFFFFFFFF ∧
    specTimestampWord 1 (-1) = 0x00000001FFFFFFFF ∧
    TsWithTz.to_u64 ⟨1, -1⟩ ≠ specTimestampWord 1 (-1) ∧
    TsWithTz.from_u64 (TsWithTz.to_u64 ⟨1, -1⟩) ≠ ⟨1, -1⟩ ∧
    TsWithTz.to_u64 (TsWithTz.from_u64 0x0000000080000000) = 0xFFFFFFFF80000000 ∧
    (0xFFFFFFFF80000000 : Nat) ≠ 0x0000000080000000 := by
  refine ⟨by decide, by decide, by decide, by decide, by decide, by decide⟩

/-- C4: the claim says underlying read errors propagate out verbatim.
The `while let Ok(n)` loops swallow them: an append whose reader fails
immediately still returns success, and an extract whose decompressor
fails returns the unrelated `InvalidData` size-mismatch error instead of
the underlying error. -/
theorem C4_read_errors_swallowed :
    (DepotHandle.add_named_sized_stream storeCodec demoHash
        (DepotHandle.create ⟨[], 0⟩) [97]
        ⟨[Except.error (IOErr.other 7)], []⟩ 5 ts0).toOption.isSome = true ∧
    (DepotHandle.extract_stream errCodec demoHash (DepotHandle.create ⟨[], 0⟩)
        ⟨[97], ⟨0, 5, 0, 0, ts0, ts0, 0⟩⟩ ⟨[], 0⟩).1 = .error .invalidData ∧
    (Except.error IOErr.invalidData : Except IOErr Unit) ≠ .error (.other 7) := by
  refine ⟨by decide, by rfl, by simp⟩

/-- C5 counterexample: two successful appends under the same name leave
`entry_count = 2` while the map holds 1 entry and `size = 2` while the
non-empty entries sum to 1, so I6 fails for a sequence of successful
appends with a repeated name. -/
theorem C5_duplicate_name_breaks_I6 :
    (applyOps storeCodec demoHash (DepotHandle.create ⟨[], 0⟩) opsC5).toOption.map
      (fun d => (d.metadata.toc.entry_count, d.metadata.toc.entries.length,
        d.metadata.toc.size, sumSizes d.metadata.toc.entries)) = some (2, 1, 2, 1) ∧
    (2 : Nat) ≠ 1 := by
  refine ⟨by decide, by decide⟩

/-- C5 (amended): after any sequence of successful append operations
whose names are pairwise distinct and absent from the starting TOC, the
in-memory TOC satisfies I6: `entry_count` equals the number of entries in
the map and `size` equals the sum of the non-empty entries' sizes. -/
theorem C5_I6_preserved_for_fresh_names (codec : Codec)
    (hashFn : List Nat → Nat) (ops : List AppendOp) (d d' : DepotHandle)
    (hI6 : I6 d.metadata.toc)
    (hnd : (keysOf d.metadata.toc.entries ++ ops.map AppendOp.name).Nodup)
    (happ : applyOps codec hashFn d ops = .ok d') :
    I6 d'.metadata.toc :=
  applyOps_I6 codec hashFn ops d d' hI6 hnd happ

/-- Witness for C5: one fresh append on a new depot preserves I6. -/
theorem C5_I6_witness :
    I6 (DepotHandle.create ⟨[], 0⟩).metadata.toc ∧
    (keysOf (DepotHandle.create ⟨[], 0⟩).metadata.toc.entries ++
      opsW5.map AppendOp.name).Nodup ∧
    applyOps storeCodec demoHash (DepotHandle.create ⟨[], 0⟩) opsW5 = .ok dW5 ∧
    I6 dW5.metadata.toc :=
  ⟨⟨rfl, rfl⟩, by decide, rfl,
    C5_I6_preserved_for_fresh_names storeCodec demoHash opsW5
      (DepotHandle.create ⟨[], 0⟩) dW5 ⟨rfl, rfl⟩ (by decide) rfl⟩

/-- C6 counterexample: `add_file` on a zero-length file grows the byte
handle by 56 bytes (the serialized `EntryInfo`), refuting "writes no
bytes to the byte handle". -/
theorem C6_zero_length_add_file_writes_bytes :
    (DepotHandle.add_file storeCodec demoHash (DepotHandle.create ⟨[], 0⟩) [97]
        ⟨false, true, true, []⟩ ts0).toOption.map
      (fun d => d.handle.data.length) = some 74 ∧ (74 : Nat) ≠ 18 := by
  refine ⟨by decide, by decide⟩

/-- C6 (amended): appending a zero-length file via `add_file` writes
exactly the 56-byte `EntryInfo` record itself into the byte handle at the
current position (a region no TOC offset references); otherwise the
empty entry occupies only its TOC record, and its `offset` field reports
the handle's position at the moment of insertion. -/
theorem C6_empty_entry_record_layout (codec : Codec) (hashFn : List Nat → Nat)
    (d : DepotHandle) (path : Name) (f : DepotHandle.FsFile) (now : TsWithTz)
    (hmode : d.mode ≠ .Read) (hdir : f.isDir = false)
    (hex : f.fileExists = true) (hreg : f.isFile = true)
    (hempty : f.content = []) :
    (DepotHandle.add_file codec hashFn d path f now).toOption.map
      (fun d' => (d'.handle.data,
        (lookupEntry path d'.metadata.toc.entries).map (fun e => e.offset))) =
      some (d.handle.data.take d.handle.pos ++
          EntryInfo.bytes ⟨d.handle.pos, 0, 0, 1, now, now, 2 ^ 64 - 1⟩ ++
          d.handle.data.drop (d.handle.pos + 56),
        some d.handle.pos) ∧
    (EntryInfo.bytes ⟨d.handle.pos, 0, 0, 1, now, now, 2 ^ 64 - 1⟩).length = 56 := by
  refine ⟨?_, length_entryBytes _⟩
  rw [add_file_zero codec hashFn d path f now hmode hdir hex hreg hempty]
  simp only [Except.toOption, Option.map_some', Handle.write, length_entryBytes,
    lookup_insert, eq_self_iff_true, if_true]

/-- Witness for C6: the layout on a freshly created depot. -/
theorem C6_empty_entry_witness :
    (DepotHandle.create ⟨[], 0⟩).mode ≠ .Read ∧
    (DepotHandle.add_file storeCodec demoHash (DepotHandle.create ⟨[], 0⟩) [97]
        ⟨false, true, true, []⟩ ts0).toOption.map
      (fun d' => (d'.handle.data,
        (lookupEntry [97] d'.metadata.toc.entries).map (fun e => e.offset))) =
      some ((DepotHandle.create ⟨[], 0⟩).handle.data.take
            (DepotHandle.create ⟨[], 0⟩).handle.pos ++
          EntryInfo.bytes ⟨(DepotHandle.create ⟨[], 0⟩).handle.pos, 0, 0, 1, ts0, ts0,
            2 ^ 64 - 1⟩ ++
          (DepotHandle.create ⟨[], 0⟩).handle.data.drop
            ((DepotHandle.create ⟨[], 0⟩).handle.pos + 56),
        some (DepotHandle.create ⟨[], 0⟩).handle.pos) :=
  ⟨by decide,
    (C6_empty_entry_record_layout storeCodec demoHash (DepotHandle.create ⟨[], 0⟩)
      [97] ⟨false, true, true, []⟩ ts0 (by decide) rfl rfl rfl rfl).1⟩

/-- Witness for C7: the round trip evaluated on two concrete pairs. -/
theorem C7_round_trip_witness :
    reopenExtract storeCodec demoHash
      (buildFile storeCodec demoHash ts0 pairsW) [97] = .ok [1, 2] :=
  C7_round_trip storeCodec demoHash ts0 pairsW demoHash_lt
    (by
      intro nb hnb rest
      refine storeCodec_dec nb.2 ?_ rest
      fin_cases hnb <;> decide)
    (by decide) (by decide) (by decide) (by decide) (by decide)
    ([97], [1, 2]) (by decide)

/-- C8 counterexample: a file with a valid magic, `version = 9` and a
well-formed empty TOC opens successfully, so a successful open does not
guarantee `version ≤ 1`: the version field is never validated. -/
theorem C8_version_not_validated :
    (DepotHandle.new ⟨fileV9, 0⟩ .Read).toOption.map
      (fun d => d.metadata.header.version) = some 9 ∧ ¬ (9 : Nat) ≤ 1 := by
  refine ⟨by decide, by decide⟩

/-- C8 (amended): opening a depot fails with `InvalidData` whenever the
8 bytes at the handle's position are available but are not the
`DEPOTARC` magic; the `version` field, however, is read without any
validation, so a successful open guarantees nothing about it. -/
theorem C8_magic_gate (h : Handle) (mode : OpenMode)
    (hlen : 8 ≤ (h.data.drop h.pos).length)
    (hmagic : beVal ((h.data.drop h.pos).take 8) ≠ MAGIC) :
    DepotHandle.new h mode = .error .invalidData := by
  have hu : parseU64 (h.data.drop h.pos) =
      .ok (beVal ((h.data.drop h.pos).take 8), (h.data.drop h.pos).drop 8) := by
    rw [parseU64, takeN, if_pos hlen, bind_ok_eq]
  have hp : parseHeader (h.data.drop h.pos) = .error .invalidData := by
    rw [parseHeader, hu, bind_ok_eq]
    simp only []
    rw [if_pos hmagic]
  have hdh : DepotHandle.deHeader h = .error .invalidData := by
    rw [DepotHandle.deHeader, hp]
  rw [DepotHandle.new, hdh, bind_error_eq]

/-- Witness for C8: an 8-byte junk prefix is rejected with `InvalidData`. -/
theorem C8_magic_gate_witness :
    8 ≤ ((List.replicate 9 1 : List Nat).drop 0).length ∧
    beVal (((List.replicate 9 1 : List Nat).drop 0).take 8) ≠ MAGIC ∧
    DepotHandle.new ⟨List.replicate 9 1, 0⟩ .Read = .error .invalidData :=
  ⟨by decide, by decide,
    C8_magic_gate ⟨List.replicate 9 1, 0⟩ .Read (by decide) (by decide)⟩

/-- C9 counterexample: an entry whose flags have bit 0 set alongside
another bit (`flags = 3`) is not treated as empty: `extract_stream`
decompresses, writes bytes to the writer, and fails with `InvalidData`
instead of returning success immediately with the writer untouched. -/
theorem C9_flags3_not_treated_empty :
    siC9.einf.flags &&& 1 = 1 ∧
    (DepotHandle.extract_stream storeCodec demoHash dC9 siC9 ⟨[], 0⟩).1 =
      .error .invalidData ∧
    (DepotHandle.extract_stream storeCodec demoHash dC9 siC9 ⟨[], 0⟩).2.2.data =
      [1, 2, 3] := by
  refine ⟨by decide, by rfl, by rfl⟩

/-- C9 (amended): appending a zero-byte payload via `add_file` produces
an entry with `flags = 1` (bit 0 set), `size = 0`, `stream_size = 0` and
`hash = 0xFFFFFFFFFFFFFFFF`; and for every entry whose flags equal
exactly 1, `extract_stream` returns success immediately leaving the
writer and the handle untouched.  (Bit 0 set alongside other bits is not
treated as empty: the code compares `flags == 1`.) -/
theorem C9_empty_entry :
    (∀ (codec : Codec) (hashFn : List Nat → Nat) (d : DepotHandle) (path : Name)
      (f : DepotHandle.FsFile) (now : TsWithTz),
      d.mode ≠ .Read → f.isDir = false → f.fileExists = true → f.isFile = true →
      f.content = [] →
      (DepotHandle.add_file codec hashFn d path f now).toOption.map
        (fun d' => lookupEntry path d'.metadata.toc.entries) =
        some (some ⟨d.handle.pos, 0, 0, 1, now, now, 2 ^ 64 - 1⟩)) ∧
    (∀ (codec : Codec) (hashFn : List Nat → Nat) (d : DepotHandle)
      (si : StreamInfo) (w : Handle), si.einf.flags = 1 →
      DepotHandle.extract_stream codec hashFn d si w = (.ok (), d, w)) := by
  constructor
  · intro codec hashFn d path f now hmode hdir hex hreg hempty
    rw [add_file_zero codec hashFn d path f now hmode hdir hex hreg hempty]
    simp only [Except.toOption, Option.map_some', lookup_insert,
      eq_self_iff_true, if_true]
  · intro codec hashFn d si w hflags
    rw [DepotHandle.extract_stream, if_pos hflags]

/-- Witness for C9: one concrete zero-byte append, and the immediate
success on a concrete `flags = 1` entry. -/
theorem C9_empty_entry_witness :
    (DepotHandle.add_file storeCodec demoHash (DepotHandle.create ⟨[], 0⟩) [97]
        ⟨false, true, true, []⟩ ts0).toOption.map
      (fun d' => lookupEntry [97] d'.metadata.toc.entries) =
      some (some ⟨(DepotHandle.create ⟨[], 0⟩).handle.pos, 0, 0, 1, ts0, ts0,
        2 ^ 64 - 1⟩) ∧
    siC9w.einf.flags = 1 ∧
    DepotHandle.extract_stream storeCodec demoHash dC9 siC9w ⟨[], 0⟩ =
      (.ok (), dC9, ⟨[], 0⟩) :=
  ⟨C9_empty_entry.1 storeCodec demoHash (DepotHandle.create ⟨[], 0⟩) [97]
      ⟨false, true, true, []⟩ ts0 (by decide) rfl rfl rfl rfl,
    rfl,
    C9_empty_entry.2 storeCodec demoHash dC9 siC9w ⟨[], 0⟩ rfl⟩

/-- C10: for every entry and every writer, `extract_stream` never writes
more than `entry.size` bytes to the writer in total — any chunk that
would push the running total past `entry.size` is trimmed to the
remaining count and the copy loop stops — so the writer's position
advances by at most `entry.size`. -/
theorem C10_extract_writes_at_most_size (codec : Codec)
    (hashFn : List Nat → Nat) (d : DepotHandle) (si : StreamInfo) (w : Handle) :
    (DepotHandle.extract_stream codec hashFn d si w).2.2.pos ≤
      w.pos + si.einf.size := by
  by_cases h : si.einf.flags = 1
  · rw [DepotHandle.extract_stream, if_pos h]
    simp
  · rw [extract_stream_eq codec hashFn d si w h]
    have hle := extractLoop_pos_le si.einf.size
      (codec.decompress (d.handle.data.drop si.einf.offset)) 0 w []
    rw [Nat.sub_zero] at hle
    split
    · exact hle
    · split
      · exact hle
      · exact hle

end Depot

